import Mathlib

/-!
# Verification of the serpyco schema-compiled record (de)serializer

Shallow embedding of the repository's schema builder (`serpyco/schema.py`)
together with spec-modelled parts for the components whose code is not in
the source tree (the record serializer and validator).  The JSON value tree
is modelled by `Json` below; Python's insertion-ordered dicts are modelled
as association lists with `dictSet`/`dictUpdate` mirroring `d[k] = v` and
`d.update(e)`.
-/

namespace Serpyco

/-- A primitive (hashable) JSON scalar: Python `None`, `bool`, `int`, `float`
and `str` values.  Floats are carried as an opaque tag (`Int`); no float
arithmetic is modelled, only identity, which is all the schema builder and
serializer use. -/
inductive JsonPrim where
  | null : JsonPrim
  | b : Bool → JsonPrim
  | i : Int → JsonPrim
  | f : Int → JsonPrim
  | s : String → JsonPrim
deriving DecidableEq, Repr

/-- JSON value trees (the generic value tree of the spec, and the shape of
Python values the schema builder manipulates). Objects are
insertion-ordered association lists, mirroring Python dicts. -/
inductive Json where
  | prim : JsonPrim → Json
  | arr : List Json → Json
  | obj : List (String × Json) → Json
deriving Repr

/-- Shorthand for JSON null. -/
def jNull : Json := .prim .null

/-- Shorthand for a JSON string. -/
def jStr (v : String) : Json := .prim (.s v)

/-- Shorthand for a JSON integer. -/
def jInt (v : Int) : Json := .prim (.i v)

/-- Shorthand for a JSON boolean. -/
def jBool (v : Bool) : Json := .prim (.b v)

/-- Python `d[k] = v` on an insertion-ordered dict: an existing key keeps its
position and gets the new value, a new key is appended. -/
def dictSet (l : List (String × Json)) (k : String) (v : Json) :
    List (String × Json) :=
  if l.any (fun p => p.1 = k) then
    l.map (fun p => if p.1 = k then (k, v) else p)
  else
    l ++ [(k, v)]

/-- Python `d.update(e)` for `e` given as an association list. -/
def dictUpdate (l : List (String × Json)) (e : List (String × Json)) :
    List (String × Json) :=
  e.foldl (fun acc p => dictSet acc p.1 p.2) l

/-- Dict lookup (first occurrence; `dictSet` keeps keys unique). -/
def dictGet (l : List (String × Json)) (k : String) : Option Json :=
  match l with
  | [] => none
  | p :: rest => if p.1 = k then some p.2 else dictGet rest k

/-- `k in d` for Python dicts. -/
def dictHas (l : List (String × Json)) (k : String) : Bool :=
  l.any (fun p => p.1 = k)

/-- Lookup of a key inside a `Json.obj`; `none` on other shapes. -/
def jsonGet (j : Json) (k : String) : Option Json :=
  match j with
  | .obj l => dictGet l k
  | _ => none

/-- Python dict `update` where the right-hand side is a `Json` value
(always an object where the source uses it). -/
def dictUpdateJ (l : List (String × Json)) (j : Json) :
    List (String × Json) :=
  match j with
  | .obj e => dictUpdate l e
  | _ => l

/-! ## The Python types seen by the schema builder

`schema.py` dispatches on reflected Python typing objects.  `PType` is a
deep embedding of the type values that reach `_get_field_schema`:
JSON-encodable primitives, `None`/`Any`, unions (`Optional` is a union
containing `NoneType`), enum classes (name, docstring and members),
mappings, fixed and variadic tuples, iterables (lists), `NewType`s,
dataclasses (referenced by qualified name into an environment) and any
other class (`pOther`), which has no schema case.  Generic dataclass
parameters are not modelled: `_DataClassParams.arguments` is always the
empty tuple and `resolve_type` is the identity, which is the behaviour of
the source on non-generic dataclasses. -/
inductive PType where
  | pStr : PType
  | pInt : PType
  | pFloat : PType
  | pBool : PType
  | pNoneType : PType
  | pAny : PType
  | pUnion : List PType → PType
  | pEnum : String → Option String → List (String × JsonPrim) → PType
  | pMapping : PType → PType → PType
  | pTupleF : List PType → PType
  | pTupleV : PType → PType
  | pList : PType → PType
  | pNewType : String → PType → PType
  | pDataclass : String → PType
  | pOther : String → PType
deriving Repr

/-- `_is_optional`: a union one of whose arguments is `NoneType`. -/
def isOptionalT (t : PType) : Bool :=
  match t with
  | .pUnion args => args.any (fun a => match a with | .pNoneType => true | _ => false)
  | _ => false

/-- `_is_generic(field_type, typing.Iterable)`: holds of the generic
containers whose runtime origin is an `Iterable` subclass (list, tuple,
dict); false for plain classes, unions, enums. -/
def isGenericIterable (t : PType) : Bool :=
  match t with
  | .pList _ => true
  | .pTupleF _ => true
  | .pTupleV _ => true
  | .pMapping _ _ => true
  | _ => false

/-- The kind of a primitive member value, as `type(member.value)` sees it. -/
inductive PrimKind where
  | kNone | kBool | kInt | kFloat | kStr
deriving DecidableEq, Repr

/-- `type(member.value)` for an enum member value. -/
def primKindOf (p : JsonPrim) : PrimKind :=
  match p with
  | .null => .kNone
  | .b _ => .kBool
  | .i _ => .kInt
  | .f _ => .kFloat
  | .s _ => .kStr

/-- The `PType` of a primitive kind (used for the enum member schema). -/
def primKindType (k : PrimKind) : PType :=
  match k with
  | .kNone => .pNoneType
  | .kBool => .pBool
  | .kInt => .pInt
  | .kFloat => .pFloat
  | .kStr => .pStr

/-! ## Field hints, fields, dataclasses -/

/-- A field encoder as the schema builder sees it: `json_schema()` (which
may return `None`, meaning "use the default schema"), and `dump` used to
serialise default values into the schema. -/
structure FieldEncoder where
  schemaFn : Option Json
  dumpFn : Json → Json

/-- An encoder table (`type_encoders` / the global registry), modelled as a
partial map keyed by the reflected type. -/
def Encoders := PType → Option FieldEncoder

/-- The empty encoder table. -/
def noEncoders : Encoders := fun _ => none

/-- `serpyco.field.FieldHints` (the attributes `schema.py` reads).  The
`getter` callable is serializer-only and not needed by any schema claim.
`validator` carries just a name tag: the schema builder only collects
validators into `(path, validator)` pairs. -/
structure FieldHints where
  dict_key : String
  ignore : Bool := false
  validator : Option String := none
  description : Option String := none
  examples : List String := []
  format_ : Option String := none
  pattern : Option String := none
  min_length : Option Int := none
  max_length : Option Int := none
  minimum : Option Int := none
  maximum : Option Int := none
  only : List String := []
  exclude : List String := []
  allowed_values : List JsonPrim := []
  type_encoders : Option Encoders := none
  cast_on_load : Bool := false

/-- A Python runtime value, as the (spec-modelled) serializer sees it:
primitives, enum members (enum name and member name), lists, tuples,
string-keyed dicts and record (dataclass) instances carrying their field
values in declaration order. -/
inductive PyValue where
  | vNone : PyValue
  | vBool : Bool → PyValue
  | vInt : Int → PyValue
  | vFloat : Int → PyValue
  | vStr : String → PyValue
  | vEnum : String → String → PyValue
  | vList : List PyValue → PyValue
  | vTuple : List PyValue → PyValue
  | vDict : List (String × PyValue) → PyValue
  | vRecord : String → List PyValue → PyValue
deriving Repr

/-- A dataclass field.  `default` is the static default as the JSON-able
value the schema writes (`none` = `dataclasses.MISSING`); `factoryV` is
`some v` when a `default_factory` exists, carrying the value the factory
produces (used only by the spec-modelled serializer; the schema builder
only tests its presence). `defaultV` is the same static default as a
runtime value for the spec-modelled serializer (the source stores one
Python value; the embedding splits it by use). -/
structure DField where
  name : String
  ftype : PType
  default : Option Json := none
  hints : FieldHints
  defaultV : Option PyValue := none
  factoryV : Option PyValue := none

/-- A dataclass: qualified name, docstring (already stripped), fields in
declaration order. -/
structure Dataclass where
  name : String
  doc : Option String := none
  fields : List DField

/-- The reflected environment: all dataclasses of the program. -/
abbrev Env := List Dataclass

/-- Find a dataclass by qualified name (`dataclasses.is_dataclass` +
access; `none` plays the role of `NotADataClassError`). -/
def envFind (env : Env) (n : String) : Option Dataclass :=
  match env with
  | [] => none
  | d :: rest => if d.name = n then some d else envFind rest n

/-- `_DataClassParams` success on a reflected type: a dataclass found in
the environment. -/
def tryDataclass (env : Env) (t : PType) : Option Dataclass :=
  match t with
  | .pDataclass n => envFind env n
  | _ => none

/-- `default_get_definition_name`: qualified name, plus `[args]`, plus
`_only_...`, plus `_exclude_...`. -/
def default_get_definition_name (name : String) (arguments : List String)
    (only exclude : List String) : String :=
  let n1 := if arguments.isEmpty then name
            else name ++ "[" ++ String.intercalate "," arguments ++ "]"
  let n2 := if only.isEmpty then n1
            else n1 ++ "_only_" ++ String.intercalate "_" only
  if exclude.isEmpty then n2
  else n2 ++ "_exclude_" ++ String.intercalate "_" exclude

/-- The tuple hashed by `SchemaBuilder.__hash__`: `(dataclass, arguments,
only, exclude)`.  Hash equality is modelled as key equality. -/
structure BuilderKey where
  name : String
  arguments : List String
  only : List String
  exclude : List String
deriving DecidableEq, Repr

/-- A `SchemaBuilder`'s construction parameters. Fields are recomputed from
the environment (mirroring `__init__`'s filtering loop) so that nested
builders are pure data. -/
structure SchemaBuilder where
  dataclassName : String
  only : List String := []
  exclude : List String := []
  types : Encoders := noEncoders
  strict : Bool := false

/-- The hash key of a builder (arguments are always empty: non-generic). -/
def SchemaBuilder.key (b : SchemaBuilder) : BuilderKey :=
  ⟨b.dataclassName, [], b.only, b.exclude⟩

/-- The field-filtering loop of `SchemaBuilder.__init__`: skip a field when
its hints say `ignore`, or `only` is non-empty and does not list it, or
`exclude` is non-empty and lists it. -/
def filteredFields (dc : Dataclass) (only exclude : List String) :
    List DField :=
  dc.fields.filter (fun f =>
    !(f.hints.ignore
      || (!only.isEmpty && !only.contains f.name)
      || (!exclude.isEmpty && exclude.contains f.name)))

mutual

/-- `SchemaBuilder._get_types`: expand unions, mappings and iterables down
to their 'root' types.  The source collects a Python `set`; duplicates are
harmless downstream (the definitions loop is guarded by key membership),
so first-visit order is kept here. -/
def getTypes : PType → List PType
  | .pUnion args => getTypesL args
  | .pMapping k v => getTypes k ++ getTypes v
  | .pTupleF args => getTypesL args
  | .pTupleV it => getTypes it
  | .pList it => getTypes it
  | t => [t]

/-- `_get_types` over the argument list of a union or tuple. -/
def getTypesL : List PType → List PType
  | [] => []
  | t :: ts => getTypes t ++ getTypesL ts

end

/-! ## Structural equality of `Json` values -/

mutual

/-- Structural equality of JSON values. -/
def jsonBeq : Json → Json → Bool
  | .prim p, .prim q => p == q
  | .arr a, .arr b => jsonBeqL a b
  | .obj a, .obj b => jsonBeqF a b
  | _, _ => false

/-- Structural equality of JSON arrays, element by element. -/
def jsonBeqL : List Json → List Json → Bool
  | [], [] => true
  | x :: xs, y :: ys => jsonBeq x y && jsonBeqL xs ys
  | _, _ => false

/-- Structural equality of JSON object entry lists. -/
def jsonBeqF : List (String × Json) → List (String × Json) → Bool
  | [], [] => true
  | (k, v) :: xs, (l, w) :: ys => k == l && jsonBeq v w && jsonBeqF xs ys
  | _, _ => false

end

mutual

theorem jsonBeq_iff : ∀ a b : Json, jsonBeq a b = true ↔ a = b
  | .prim _, .prim _ => by simp [jsonBeq]
  | .arr x, .arr y => by simp [jsonBeq, jsonBeqL_iff x y]
  | .obj x, .obj y => by simp [jsonBeq, jsonBeqF_iff x y]
  | .prim _, .arr _ | .prim _, .obj _
  | .arr _, .prim _ | .arr _, .obj _
  | .obj _, .prim _ | .obj _, .arr _ => by simp [jsonBeq]

theorem jsonBeqL_iff : ∀ a b : List Json, jsonBeqL a b = true ↔ a = b
  | [], [] => by simp [jsonBeqL]
  | x :: xs, y :: ys => by
      simp [jsonBeqL, jsonBeq_iff x y, jsonBeqL_iff xs ys]
  | [], _ :: _ | _ :: _, [] => by simp [jsonBeqL]

theorem jsonBeqF_iff :
    ∀ a b : List (String × Json), jsonBeqF a b = true ↔ a = b
  | [], [] => by simp [jsonBeqF]
  | (k, v) :: xs, (l, w) :: ys => by
      simp [jsonBeqF, jsonBeq_iff v w, jsonBeqF_iff xs ys, and_assoc]
  | [], _ :: _ | _ :: _, [] => by simp [jsonBeqF]

end

instance : DecidableEq Json :=
  fun a b => decidable_of_iff (jsonBeq a b = true) (jsonBeq_iff a b)

/-! ## `SchemaBuilder._get_field_schema` -/

/-- Errors of the schema builder: `SchemaError` (raised for a type with no
schema case), `NotADataClassError` surfacing from `_DataClassParams`, and
fuel exhaustion of the embedding (never reached with enough fuel, see the
termination theorems). -/
inductive SErr where
  | fuelOut : SErr
  | schemaError : String → SErr
  | notADataclass : String → SErr
deriving DecidableEq, Repr

/-- `j[k] = v` when `j` is an object (other shapes unchanged; the source
only ever does this on dicts). -/
def jsonSet (j : Json) (k : String) (v : Json) : Json :=
  match j with
  | .obj l => .obj (dictSet l k v)
  | other => other

/-- Write an optional integer-valued hint under `k`. -/
def applyHintI (j : Json) (k : String) (a : Option Int) : Json :=
  match a with
  | some n => jsonSet j k (jInt n)
  | none => j

/-- Write an optional string-valued hint under `k`. -/
def applyHintS (j : Json) (k : String) (a : Option String) : Json :=
  match a with
  | some v => jsonSet j k (jStr v)
  | none => j

/-- The `JSON_ENCODABLE_TYPES` table of `util.py`. -/
def jsonEncodableName (t : PType) : Option String :=
  match t with
  | .pStr => some "string"
  | .pInt => some "integer"
  | .pBool => some "boolean"
  | .pFloat => some "number"
  | _ => none

/-- The hints-decoration tail of `_get_field_schema` (description,
examples, `allowed_values` intersected with a pre-existing `enum`).  The
source computes `list(set(field_schema["enum"]) & set(values))`; the
deterministic stand-in keeps the existing enum's order. -/
def decorateFieldSchema (hints : FieldHints) (j : Json) : Json :=
  let j1 := applyHintS j "description" hints.description
  let j2 := if hints.examples.isEmpty then j1
            else jsonSet j1 "examples" (.arr (hints.examples.map jStr))
  if hints.allowed_values.isEmpty then j2
  else
    let vjs : List Json := hints.allowed_values.map Json.prim
    let final :=
      match jsonGet j2 "enum" with
      | some (.arr es) => es.filter (fun e => vjs.contains e)
      | _ => vjs
    jsonSet j2 "enum" (.arr final)

/-- The body of `SchemaBuilder._get_field_schema`, with the recursive
call abstracted (`rec'` recurses with the same builder state, hints and
parents on a smaller type).  Returns the field's schema fragment and the
`required` flag the function computes (`True` unless the type is a union
containing `NoneType`, or the encoder path applies).  `parents` is the
`parent_builders` list; its head is the root builder, used for the `"#"`
self-reference.  `resolve_type` is the identity on non-generic
dataclasses and is therefore omitted. -/
def getFieldSchemaCore (rec' : PType → Except SErr (Json × Bool))
    (env : Env) (glob : Encoders) (types : Encoders)
    (parents : List BuilderKey) (hints : FieldHints) (ftype : PType) :
    Except SErr (Json × Bool) :=
  -- `schema = self._types[field_type].json_schema()`; early return
  -- (skipping decoration) when the encoder provides a schema.
  match (types ftype).bind (fun enc => enc.schemaFn) with
  | some sch => .ok (sch, !isOptionalT ftype)
  | none => do
    let base : Except SErr (Json × Bool) :=
      match glob ftype with
      | some enc => .ok (enc.schemaFn.getD jNull, true)
      | none =>
        match ftype with
        | .pAny => .ok (.obj [], true)
        | .pNoneType => .ok (.obj [("type", jStr "null")], true)
        | .pUnion args => do
          let schemas ← args.mapM (fun a => do
            let r ← rec' a
            pure r.1)
          pure (.obj [("anyOf", .arr schemas)],
            !(args.any (fun a =>
                match a with | .pNoneType => true | _ => false)))
        | .pEnum _ doc members => do
          let kinds := (members.map (fun m => primKindOf m.2)).dedup
          let start : Json ←
            match kinds with
            | [k] => do
              let r ← rec' (primKindType k)
              pure (.obj (dictUpdateJ [] r.1))
            | _ => pure (.obj [])
          let withEnum := jsonSet start "enum"
            (.arr (members.map (fun m => .prim m.2)))
          pure (applyHintS withEnum "description" doc, true)
        | .pStr | .pInt | .pBool | .pFloat =>
          let fs : Json := .obj
            [("type", jStr ((jsonEncodableName ftype).getD ""))]
          let fs := applyHintS fs "pattern" hints.pattern
          let fs := applyHintI fs "maxLength" hints.max_length
          let fs := applyHintI fs "minLength" hints.min_length
          let fs := applyHintI fs "minimum" hints.minimum
          let fs := applyHintI fs "maximum" hints.maximum
          let fs := applyHintS fs "format" hints.format_
          .ok (fs, true)
        | .pMapping _ v => do
          let add ← rec' v
          pure (jsonSet (.obj [("type", jStr "object")])
            "additionalProperties" add.1, true)
        | .pTupleF args => do
          let items ← args.mapM (fun a => do
            let r ← rec' a
            pure r.1)
          pure (.obj [("type", jStr "array"),
            ("minItems", jInt (Int.ofNat args.length)),
            ("maxItems", jInt (Int.ofNat args.length)),
            ("items", .arr items)], true)
        | .pTupleV it => do
          let r ← rec' it
          pure (jsonSet (.obj [("type", jStr "array")]) "items" r.1, true)
        | .pList it => do
          let r ← rec' it
          pure (jsonSet (.obj [("type", jStr "array")]) "items" r.1, true)
        | .pNewType _ sup => do
          let r ← rec' sup
          pure (r.1, true)
        | .pDataclass n =>
          match envFind env n with
          | some _ =>
            -- `params == parent_builders[0]._dataclass` compares the
            -- origin type and generic arguments (both empty here).
            let rootKey := parents.headD ⟨"", [], [], []⟩
            let ref :=
              if n = rootKey.name then "#"
              else "#/definitions/" ++
                default_get_definition_name n [] hints.only hints.exclude
            .ok (.obj [("$ref", jStr ref)], true)
          | none =>
            .error (.schemaError ("Unable to create schema for " ++ n))
        | .pOther n =>
          .error (.schemaError ("Unable to create schema for " ++ n))
    let (fs, req) ← base
    pure (decorateFieldSchema hints fs, req)

/-- `SchemaBuilder._get_field_schema` (fuelled recursion through
`getFieldSchemaCore`). -/
def getFieldSchema (fuel : Nat) (env : Env) (glob : Encoders)
    (types : Encoders) (parents : List BuilderKey) (hints : FieldHints)
    (ftype : PType) : Except SErr (Json × Bool) :=
  match fuel with
  | 0 => .error .fuelOut
  | fuel + 1 =>
    getFieldSchemaCore (getFieldSchema fuel env glob types parents hints)
      env glob types parents hints ftype

theorem getFieldSchema_succ (fuel : Nat) (env : Env) (glob : Encoders)
    (types : Encoders) (parents : List BuilderKey) (hints : FieldHints)
    (ftype : PType) :
    getFieldSchema (fuel + 1) env glob types parents hints ftype =
      getFieldSchemaCore (getFieldSchema fuel env glob types parents hints)
        env glob types parents hints ftype := rfl

/-! ## `SchemaBuilder._create_json_schema` -/

/-- The result of one `_create_json_schema` call: the schema, the shared
(mutated-in-place) `parent_builders` list, the builder's
`_nested_builders` additions and its `_field_validators` content. -/
structure CreateOut where
  schema : Json
  parents : List BuilderKey
  nested : List (String × SchemaBuilder)
  fvs : List (String × String)

/-- Shape of the recursive `sub._create_json_schema(embeddable=True, ...)`
call: arguments are the sub builder, `many`, `embeddable` and the shared
parents list (the sub starts with empty `_field_validators`). -/
def RecCall : Type :=
  SchemaBuilder → Bool → Bool → List BuilderKey → Except SErr CreateOut

/-- Mutable accumulators of the field loop of `_create_json_schema`. -/
structure BuildAcc where
  properties : List (String × Json)
  required : List String
  definitions : List (String × Json)
  parents : List BuilderKey
  nested : List (String × SchemaBuilder)
  fvs : List (String × String)

/-- One iteration of the `for item_type in self._get_types(...)` loop:
skip non-dataclasses (`NotADataClassError` → `continue`), skip a
definition name already present, skip a key matching a parent builder
(the `for ... break / else` over `parent_builders`), otherwise create the
sub builder, recurse, and merge its definitions. -/
def processItem (rc : RecCall) (env : Env) (b : SchemaBuilder)
    (noFV : Bool) (vfield : DField) (isIter : Bool) (acc : BuildAcc)
    (itemType : PType) : Except SErr BuildAcc :=
  match itemType with
  | .pDataclass n =>
    match envFind env n with
    | none => .ok acc
    | some _ =>
      let definitionName := default_get_definition_name n []
        vfield.hints.only vfield.hints.exclude
      if dictHas acc.definitions definitionName then .ok acc
      else
        let key : BuilderKey := ⟨n, [], vfield.hints.only, vfield.hints.exclude⟩
        if acc.parents.contains key then .ok acc
        else do
          let sub : SchemaBuilder :=
            { dataclassName := n
              only := vfield.hints.only
              exclude := vfield.hints.exclude
              types := vfield.hints.type_encoders.getD b.types
              strict := false }
          -- `self._nested_builders.add((definition_name, sub))`; the
          -- union with `sub._nested_builders` that follows in the source
          -- unions a still-empty set and is a no-op.
          let nested := acc.nested ++ [(definitionName, sub)]
          let out ← rc sub isIter true acc.parents
          let fvs :=
            if noFV then
              acc.fvs ++ out.fvs.map (fun p =>
                (vfield.name ++ (if isIter then "/*/" else "/") ++ p.1, p.2))
            else acc.fvs
          let defs1 := dictSet acc.definitions definitionName jNull
          let defs2 := dictUpdateJ defs1 out.schema
          .ok { acc with
                definitions := defs2
                parents := out.parents
                nested := nested
                fvs := fvs }
  | _ => .ok acc

/-- The `for item_type in self._get_types(field_type)` loop. -/
def processItems (rc : RecCall) (env : Env) (b : SchemaBuilder)
    (noFV : Bool) (vfield : DField) (isIter : Bool) :
    List PType → BuildAcc → Except SErr BuildAcc
  | [], acc => .ok acc
  | t :: ts, acc => do
    let acc' ← processItem rc env b noFV vfield isIter acc t
    processItems rc env b noFV vfield isIter ts acc'

/-- The `default` handling of the field loop: when a static default
exists, dump it through the field's encoder (unless it is `None`) and
write it under `"default"`. -/
def applyDefault (types : Encoders) (vfield : DField) (j : Json) : Json :=
  match vfield.default with
  | some dv =>
    let dv' :=
      match types vfield.ftype with
      | some enc => if dv = jNull then dv else enc.dumpFn dv
      | none => dv
    jsonSet j "default" dv'
  | none => j

/-- One iteration of the `for vfield in self._fields` loop of
`_create_json_schema`. -/
def processField (rc : RecCall) (fuel : Nat) (env : Env) (glob : Encoders)
    (b : SchemaBuilder) (noFV : Bool) (acc : BuildAcc) (vfield : DField) :
    Except SErr BuildAcc := do
  let ftype := vfield.ftype
  let r ← getFieldSchema fuel env glob b.types acc.parents vfield.hints ftype
  -- The `is_required` returned above is immediately overwritten: a field
  -- is required iff it has neither a default value nor a default factory.
  let isRequired := vfield.default.isNone && vfield.factoryV.isNone
  let acc1 := { acc with
    properties := dictSet acc.properties vfield.hints.dict_key
      (applyDefault b.types vfield r.1) }
  let isIter := isGenericIterable ftype
  let acc2 ← processItems rc env b noFV vfield isIter (getTypes ftype) acc1
  let acc3 :=
    if isRequired then
      { acc2 with required := acc2.required ++ [vfield.hints.dict_key] }
    else acc2
  match vfield.hints.validator with
  | some v =>
    if noFV then .ok { acc3 with fvs := acc3.fvs ++ [(vfield.name, v)] }
    else .ok acc3
  | none => .ok acc3

/-- The field loop of `_create_json_schema`. -/
def processFields (rc : RecCall) (fuel : Nat) (env : Env) (glob : Encoders)
    (b : SchemaBuilder) (noFV : Bool) :
    List DField → BuildAcc → Except SErr BuildAcc
  | [], acc => .ok acc
  | f :: fs, acc => do
    let acc' ← processField rc fuel env glob b noFV acc f
    processFields rc fuel env glob b noFV fs acc'

/-- The draft-04 `$schema` URI. -/
def draft04 : String := "http://json-schema.org/draft-04/schema#"

/-- The root-assembly tail of `_create_json_schema`: the object schema
(`type`, `properties`, `comment`, `additionalProperties`, `required`,
optional `description` from the docstring), wrapped according to
`embeddable`/`many`. -/
def assembleSchema (b : SchemaBuilder) (dc : Dataclass)
    (many embeddable : Bool) (acc : BuildAcc) : Json :=
  let schema0 : Json := .obj
    [("type", jStr "object"),
     ("properties", .obj acc.properties),
     ("comment", jStr dc.name),
     ("additionalProperties", jBool (!b.strict)),
     ("required", .arr (acc.required.map jStr))]
  let schema1 :=
    match dc.doc with
    | some d => jsonSet schema0 "description" (jStr d)
    | none => schema0
  if embeddable then
    .obj (dictSet acc.definitions
      (default_get_definition_name b.dataclassName [] b.only b.exclude)
      schema1)
  else if !many then
    jsonSet (jsonSet schema1 "definitions" (.obj acc.definitions))
      "$schema" (jStr draft04)
  else
    .obj [("definitions", .obj acc.definitions),
          ("$schema", jStr draft04),
          ("type", jStr "array"),
          ("items", schema1)]

/-- `SchemaBuilder._create_json_schema`.  The `parent_builders` list is
shared and mutated in the source (appended to, never popped), so it is
threaded in and returned.  `fvIn` is the builder's `_field_validators`
state on entry. -/
def createJsonSchema (fuel : Nat) (env : Env) (glob : Encoders)
    (b : SchemaBuilder) (many embeddable : Bool)
    (parents0 : List BuilderKey) (fvIn : List (String × String)) :
    Except SErr CreateOut :=
  match fuel with
  | 0 => .error .fuelOut
  | fuel + 1 =>
    match envFind env b.dataclassName with
    | none =>
      .error (.notADataclass (b.dataclassName ++ " is not a dataclass"))
    | some dc => do
      let parents := parents0 ++ [b.key]
      let noFV := fvIn.isEmpty
      let rc : RecCall := fun sub m e ps =>
        createJsonSchema fuel env glob sub m e ps []
      let acc0 : BuildAcc := ⟨[], [], [], parents, [], fvIn⟩
      let acc ← processFields rc fuel env glob b noFV
        (filteredFields dc b.only b.exclude) acc0
      .ok ⟨assembleSchema b dc many embeddable acc, acc.parents,
           acc.nested, acc.fvs⟩

/-! ## The builder API: caching state machine -/

mutual

/-- `copy.deepcopy` of a JSON value (extensionally the identity on the
value tree; the address-level content of the copy is treated by the heap
model further below). -/
def deepcopy : Json → Json
  | .prim p => .prim p
  | .arr l => .arr (deepcopyL l)
  | .obj l => .obj (deepcopyF l)

/-- `copy.deepcopy` over a JSON array's elements. -/
def deepcopyL : List Json → List Json
  | [] => []
  | x :: xs => deepcopy x :: deepcopyL xs

/-- `copy.deepcopy` over a JSON object's entries. -/
def deepcopyF : List (String × Json) → List (String × Json)
  | [] => []
  | (k, v) :: xs => (k, deepcopy v) :: deepcopyF xs

end

/-- The mutable state of a `SchemaBuilder` instance: the two schema cache
slots, the `_nested_builders` set and the `_field_validators` list.
Note the source naming: `json_schema(many=True)` caches in `_schema` and
`json_schema(many=False)` caches in `_many_schema`. -/
structure BState where
  schemaCache : Json := .obj []
  manySchemaCache : Json := .obj []
  nested : List (String × SchemaBuilder) := []
  fvs : List (String × String) := []

/-- Python truthiness of a dict: empty is falsy. -/
def jsonIsEmptyObj (j : Json) : Bool :=
  match j with
  | .obj [] => true
  | _ => false

/-- `SchemaBuilder.json_schema(many)`: with `many=True` the `_schema`
slot is consulted and filled, with `many=False` the `_many_schema` slot;
the returned value is a deep copy of the cached dict. -/
def jsonSchemaM (fuel : Nat) (env : Env) (glob : Encoders)
    (b : SchemaBuilder) (st : BState) (many : Bool) :
    Except SErr (Json × BState) :=
  if many then
    if jsonIsEmptyObj st.schemaCache then do
      let out ← createJsonSchema fuel env glob b many false [] st.fvs
      let st' : BState := { st with
        schemaCache := out.schema
        nested := st.nested ++ out.nested
        fvs := out.fvs }
      .ok (deepcopy st'.schemaCache, st')
    else .ok (deepcopy st.schemaCache, st)
  else
    if jsonIsEmptyObj st.manySchemaCache then do
      let out ← createJsonSchema fuel env glob b many false [] st.fvs
      let st' : BState := { st with
        manySchemaCache := out.schema
        nested := st.nested ++ out.nested
        fvs := out.fvs }
      .ok (deepcopy st'.manySchemaCache, st')
    else .ok (deepcopy st.manySchemaCache, st)

/-- `SchemaBuilder.nested_builders()`: when the `_nested_builders` set is
empty, `self._schema = self._create_json_schema()` is run (with its
default arguments, i.e. `many=False`), then the set is returned. -/
def nestedBuildersM (fuel : Nat) (env : Env) (glob : Encoders)
    (b : SchemaBuilder) (st : BState) :
    Except SErr (List (String × SchemaBuilder) × BState) :=
  if st.nested.isEmpty then do
    let out ← createJsonSchema fuel env glob b false false [] st.fvs
    let st' : BState := { st with
      schemaCache := out.schema
      nested := st.nested ++ out.nested
      fvs := out.fvs }
    .ok (st'.nested, st')
  else .ok (st.nested, st)

/-- `SchemaBuilder.field_validators()`. -/
def fieldValidatorsM (st : BState) : List (String × String) :=
  st.fvs.map (fun p => ("#/" ++ p.1, p.2))

/-! ## Dictionary lemmas -/

/-- The keys of a dict, in insertion order. -/
def dictKeys (l : List (String × Json)) : List String :=
  l.map Prod.fst

theorem dictGet_append (l l' : List (String × Json)) (k : String) :
    dictGet (l ++ l') k =
      match dictGet l k with
      | some v => some v
      | none => dictGet l' k := by
  induction l with
  | nil => simp [dictGet]
  | cons p rest ih =>
    by_cases h : p.1 = k <;> simp [dictGet, h, ih]

theorem dictGet_eq_none_of_not_any (l : List (String × Json)) (k : String)
    (h : l.any (fun p => p.1 = k) = false) : dictGet l k = none := by
  induction l with
  | nil => simp [dictGet]
  | cons p rest ih =>
    simp only [List.any_cons, Bool.or_eq_false_iff] at h
    have h1 : ¬ p.1 = k := by simpa using h.1
    simp [dictGet, h1, ih h.2]

theorem dictGet_isSome_of_any (l : List (String × Json)) (k : String)
    (h : l.any (fun p => p.1 = k) = true) : (dictGet l k).isSome = true := by
  induction l with
  | nil => simp at h
  | cons p rest ih =>
    by_cases h1 : p.1 = k
    · simp [dictGet, h1]
    · simp only [List.any_cons, Bool.or_eq_true_iff] at h
      rcases h with h | h
      · simp [h1] at h
      · simp [dictGet, h1, ih h]

theorem dictGet_map_set_self (l : List (String × Json)) (k : String)
    (v : Json) (h : l.any (fun p => p.1 = k) = true) :
    dictGet (l.map (fun p => if p.1 = k then (k, v) else p)) k = some v := by
  induction l with
  | nil => simp at h
  | cons p rest ih =>
    by_cases h1 : p.1 = k
    · simp [dictGet, h1]
    · simp only [List.any_cons, Bool.or_eq_true_iff] at h
      rcases h with h | h
      · simp [h1] at h
      · simp [dictGet, h1, ih h]

theorem dictGet_map_set_ne (l : List (String × Json)) (k k' : String)
    (v : Json) (hne : k' ≠ k) :
    dictGet (l.map (fun p => if p.1 = k then (k, v) else p)) k' =
      dictGet l k' := by
  induction l with
  | nil => simp [dictGet]
  | cons p rest ih =>
    by_cases h1 : p.1 = k
    · have hp : ¬ p.1 = k' := by
        rw [h1]; exact fun hh => hne hh.symm
      have hk : ¬ k = k' := fun hh => hne hh.symm
      simp [dictGet, h1, hp, hk, ih]
    · simp only [List.map_cons]
      rw [show (if p.1 = k then (k, v) else p) = p from if_neg h1]
      by_cases h2 : p.1 = k' <;> simp [dictGet, h2, ih]

theorem dictGet_dictSet_self (l : List (String × Json)) (k : String)
    (v : Json) : dictGet (dictSet l k v) k = some v := by
  unfold dictSet
  cases hany : l.any (fun p => p.1 = k) with
  | true => simp [dictGet_map_set_self l k v hany]
  | false =>
    rw [if_neg (by simp [hany])]
    rw [dictGet_append, dictGet_eq_none_of_not_any l k hany]
    simp [dictGet]

theorem dictGet_dictSet_ne (l : List (String × Json)) (k k' : String)
    (v : Json) (hne : k' ≠ k) :
    dictGet (dictSet l k v) k' = dictGet l k' := by
  unfold dictSet
  cases hany : l.any (fun p => p.1 = k) with
  | true => simp [dictGet_map_set_ne l k k' v hne]
  | false =>
    rw [if_neg (by simp [hany])]
    rw [dictGet_append]
    have hk : ¬ k = k' := fun hh => hne hh.symm
    cases hg : dictGet l k' <;> simp [dictGet, hk]

theorem dictKeys_dictSet_of_has (l : List (String × Json)) (k : String)
    (v : Json) (h : l.any (fun p => p.1 = k) = true) :
    dictKeys (dictSet l k v) = dictKeys l := by
  unfold dictSet dictKeys
  rw [if_pos (by simp [h])]
  rw [List.map_map]
  apply List.map_congr_left
  intro p _
  by_cases h1 : p.1 = k <;> simp [h1]

theorem dictKeys_dictSet_of_not_has (l : List (String × Json)) (k : String)
    (v : Json) (h : l.any (fun p => p.1 = k) = false) :
    dictKeys (dictSet l k v) = dictKeys l ++ [k] := by
  unfold dictSet dictKeys
  rw [if_neg (by simp [h])]
  simp

theorem dictHas_iff_mem_keys (l : List (String × Json)) (k : String) :
    dictHas l k = true ↔ k ∈ dictKeys l := by
  unfold dictHas dictKeys
  rw [List.any_eq_true]
  constructor
  · rintro ⟨p, hp, he⟩
    simp only [decide_eq_true_eq] at he
    exact List.mem_map.2 ⟨p, hp, he⟩
  · intro hmem
    rcases List.mem_map.1 hmem with ⟨p, hp, he⟩
    exact ⟨p, hp, by simp [he]⟩

theorem dictKeys_nodup_dictSet (l : List (String × Json)) (k : String)
    (v : Json) (h : (dictKeys l).Nodup) :
    (dictKeys (dictSet l k v)).Nodup := by
  cases hany : l.any (fun p => p.1 = k) with
  | true => rw [dictKeys_dictSet_of_has l k v hany]; exact h
  | false =>
    rw [dictKeys_dictSet_of_not_has l k v hany]
    have hk : k ∉ dictKeys l := by
      intro hmem
      have hh := (dictHas_iff_mem_keys l k).2 hmem
      unfold dictHas at hh
      rw [hany] at hh
      exact Bool.false_ne_true hh
    simp [List.nodup_append, h, hk]

theorem jsonGet_jsonSet_self (l : List (String × Json)) (k : String)
    (v : Json) : jsonGet (jsonSet (.obj l) k v) k = some v := by
  simp [jsonSet, jsonGet, dictGet_dictSet_self]

theorem jsonGet_jsonSet_ne (l : List (String × Json)) (k k' : String)
    (v : Json) (hne : k' ≠ k) :
    jsonGet (jsonSet (.obj l) k v) k' = dictGet l k' := by
  simp [jsonSet, jsonGet, dictGet_dictSet_ne l k k' v hne]

/-! ## Shape lemmas for the field loop -/

theorem bind_eq_ok {eps α β : Type} {e : Except eps α}
    {f : α → Except eps β}
    {r : β} : e >>= f = .ok r ↔ ∃ a, e = .ok a ∧ f a = .ok r := by
  cases e with
  | error err => simp [Bind.bind, Except.bind]
  | ok a => simp [Bind.bind, Except.bind]

/-- `processItem` never touches `properties` or `required`. -/
theorem processItem_inv {rc : RecCall} {env : Env} {b : SchemaBuilder}
    {noFV : Bool} {vf : DField} {isIter : Bool} {acc : BuildAcc}
    {t : PType} {acc' : BuildAcc}
    (h : processItem rc env b noFV vf isIter acc t = .ok acc') :
    acc'.properties = acc.properties ∧ acc'.required = acc.required := by
  cases t <;>
    first
    | (simp only [processItem] at h
       cases h
       exact ⟨rfl, rfl⟩)
    | skip
  case pDataclass n =>
    simp only [processItem] at h
    cases henv : envFind env n with
    | none =>
      rw [henv] at h
      cases h
      exact ⟨rfl, rfl⟩
    | some dc =>
      rw [henv] at h
      by_cases hdict : dictHas acc.definitions
          (default_get_definition_name n [] vf.hints.only
            vf.hints.exclude) = true
      · rw [if_pos hdict] at h
        cases h; exact ⟨rfl, rfl⟩
      · rw [if_neg hdict] at h
        by_cases hcont : acc.parents.contains
            ⟨n, [], vf.hints.only, vf.hints.exclude⟩ = true
        · rw [if_pos hcont] at h
          cases h; exact ⟨rfl, rfl⟩
        · rw [if_neg hcont] at h
          rcases bind_eq_ok.1 h with ⟨out, _, hrest⟩
          cases hrest
          exact ⟨rfl, rfl⟩

/-- `processItems` never touches `properties` or `required`. -/
theorem processItems_inv {rc : RecCall} {env : Env} {b : SchemaBuilder}
    {noFV : Bool} {vf : DField} {isIter : Bool} {ts : List PType}
    {acc acc' : BuildAcc}
    (h : processItems rc env b noFV vf isIter ts acc = .ok acc') :
    acc'.properties = acc.properties ∧ acc'.required = acc.required := by
  induction ts generalizing acc with
  | nil =>
    simp only [processItems] at h
    cases h
    exact ⟨rfl, rfl⟩
  | cons t ts ih =>
    simp only [processItems] at h
    rcases bind_eq_ok.1 h with ⟨mid, hmid, hrest⟩
    rcases processItem_inv hmid with ⟨hp, hr⟩
    rcases ih hrest with ⟨hp', hr'⟩
    exact ⟨hp'.trans hp, hr'.trans hr⟩

/-- What one field-loop iteration does to `properties` and `required`:
the field's fragment (with default applied) is written under its
`dict_key`, and the `dict_key` is appended to `required` exactly when the
field has neither a default value nor a default factory. -/
theorem processField_spec {rc : RecCall} {fuel : Nat} {env : Env}
    {glob : Encoders} {b : SchemaBuilder} {noFV : Bool} {acc : BuildAcc}
    {vf : DField} {acc' : BuildAcc}
    (h : processField rc fuel env glob b noFV acc vf = .ok acc') :
    ∃ r, getFieldSchema fuel env glob b.types acc.parents vf.hints
        vf.ftype = .ok r ∧
      acc'.properties = dictSet acc.properties vf.hints.dict_key
        (applyDefault b.types vf r.1) ∧
      acc'.required = acc.required ++
        (if vf.default.isNone && vf.factoryV.isNone
         then [vf.hints.dict_key] else []) := by
  unfold processField at h
  rcases bind_eq_ok.1 h with ⟨r, hr, hrest⟩
  rcases bind_eq_ok.1 hrest with ⟨acc2, hacc2, hfinal⟩
  rcases processItems_inv hacc2 with ⟨hp2, hr2⟩
  refine ⟨r, hr, ?_⟩
  have hfin : acc'.properties = acc2.properties ∧
      acc'.required = (if vf.default.isNone && vf.factoryV.isNone
        then { acc2 with
               required := acc2.required ++ [vf.hints.dict_key] }
        else acc2).required := by
    cases hv : vf.hints.validator with
    | none =>
      rw [hv] at hfinal
      cases hfinal
      cases hreq : (vf.default.isNone && vf.factoryV.isNone) <;>
        simp [hreq]
    | some v =>
      rw [hv] at hfinal
      cases hnf : noFV <;> rw [hnf] at hfinal <;> cases hfinal <;>
        (cases hreq : (vf.default.isNone && vf.factoryV.isNone) <;>
          simp [hreq])
  rcases hfin with ⟨hfp, hfr⟩
  constructor
  · rw [hfp, hp2]
  · rw [hfr]
    cases hreq : (vf.default.isNone && vf.factoryV.isNone) <;>
      simp [hreq, hr2]

/-- The `required` list accumulated over a list of fields. -/
theorem processFields_required {rc : RecCall} {fuel : Nat} {env : Env}
    {glob : Encoders} {b : SchemaBuilder} {noFV : Bool}
    {fs : List DField} {acc acc' : BuildAcc}
    (h : processFields rc fuel env glob b noFV fs acc = .ok acc') :
    acc'.required = acc.required ++
      (fs.filter (fun f => f.default.isNone && f.factoryV.isNone)).map
        (fun f => f.hints.dict_key) := by
  induction fs generalizing acc with
  | nil =>
    simp only [processFields] at h
    cases h
    simp
  | cons f fs ih =>
    simp only [processFields] at h
    rcases bind_eq_ok.1 h with ⟨mid, hmid, hrest⟩
    rcases processField_spec hmid with ⟨r, _, _, hreq⟩
    have := ih hrest
    rw [this, hreq]
    cases hd : (f.default.isNone && f.factoryV.isNone) <;>
      simp [hd, List.filter_cons]

/-- Keys not written by any of the fields keep their `properties` value. -/
theorem processFields_properties_other {rc : RecCall} {fuel : Nat}
    {env : Env} {glob : Encoders} {b : SchemaBuilder} {noFV : Bool}
    {fs : List DField} {acc acc' : BuildAcc} {k : String}
    (h : processFields rc fuel env glob b noFV fs acc = .ok acc')
    (hk : ∀ f ∈ fs, f.hints.dict_key ≠ k) :
    dictGet acc'.properties k = dictGet acc.properties k := by
  induction fs generalizing acc with
  | nil =>
    simp only [processFields] at h
    cases h
    rfl
  | cons f fs ih =>
    simp only [processFields] at h
    rcases bind_eq_ok.1 h with ⟨mid, hmid, hrest⟩
    rcases processField_spec hmid with ⟨r, _, hprops, _⟩
    have h2 := ih hrest (fun g hg => hk g (List.mem_cons_of_mem f hg))
    rw [h2, hprops,
      dictGet_dictSet_ne _ _ _ _
        (fun he => hk f (List.mem_cons_self f fs) he.symm)]

/-- The `properties` entry of a field whose `dict_key` is not reused by a
later field: its fragment (through `_get_field_schema` at the parents
state current when the field was processed) with the default applied. -/
theorem processFields_properties_mem {rc : RecCall} {fuel : Nat}
    {env : Env} {glob : Encoders} {b : SchemaBuilder} {noFV : Bool}
    {fs : List DField} {acc acc' : BuildAcc} {vf : DField}
    (h : processFields rc fuel env glob b noFV fs acc = .ok acc')
    (hmem : vf ∈ fs)
    (hnodup : (fs.map (fun f => f.hints.dict_key)).Nodup) :
    ∃ ps r, getFieldSchema fuel env glob b.types ps vf.hints
        vf.ftype = .ok r ∧
      dictGet acc'.properties vf.hints.dict_key =
        some (applyDefault b.types vf r.1) := by
  induction fs generalizing acc with
  | nil => cases hmem
  | cons f fs ih =>
    simp only [processFields] at h
    rcases bind_eq_ok.1 h with ⟨mid, hmid, hrest⟩
    rcases List.mem_cons.1 hmem with heq | htail
    · subst heq
      rcases processField_spec hmid with ⟨r, hr, hprops, _⟩
      refine ⟨acc.parents, r, hr, ?_⟩
      have hlater : ∀ g ∈ fs, g.hints.dict_key ≠ vf.hints.dict_key := by
        intro g hg he
        rcases List.nodup_cons.1 hnodup with ⟨hnot, _⟩
        exact hnot (by
          simpa [he] using
            List.mem_map_of_mem (fun f => f.hints.dict_key) hg)
      rw [processFields_properties_other hrest hlater, hprops,
        dictGet_dictSet_self]
    · exact ih hrest htail (List.nodup_cons.1 hnodup).2

/-! ## Characterization of `_create_json_schema` output -/

theorem jsonSet_obj (l : List (String × Json)) (k : String) (v : Json) :
    jsonSet (.obj l) k v = .obj (dictSet l k v) := rfl

/-- The recursive call handed to the field loop. -/
def rcOf (fuel : Nat) (env : Env) (glob : Encoders) : RecCall :=
  fun sub m e ps => createJsonSchema fuel env glob sub m e ps []

theorem createJsonSchema_succ (fuel : Nat) (env : Env) (glob : Encoders)
    (b : SchemaBuilder) (many embeddable : Bool)
    (parents0 : List BuilderKey) (fvIn : List (String × String)) :
    createJsonSchema (fuel + 1) env glob b many embeddable parents0 fvIn =
      match envFind env b.dataclassName with
      | none =>
        .error (.notADataclass (b.dataclassName ++ " is not a dataclass"))
      | some dc =>
        (processFields (rcOf fuel env glob) fuel env glob b fvIn.isEmpty
          (filteredFields dc b.only b.exclude)
          ⟨[], [], [], parents0 ++ [b.key], [], fvIn⟩).bind
          (fun acc => .ok ⟨assembleSchema b dc many embeddable acc,
            acc.parents, acc.nested, acc.fvs⟩) := by
  unfold createJsonSchema rcOf
  cases envFind env b.dataclassName <;> rfl

/-- Decomposition of a successful `_create_json_schema` run. -/
theorem createJsonSchema_parts {fuel : Nat} {env : Env} {glob : Encoders}
    {b : SchemaBuilder} {many embeddable : Bool}
    {parents0 : List BuilderKey} {fvIn : List (String × String)}
    {out : CreateOut} {dc : Dataclass}
    (h : createJsonSchema (fuel + 1) env glob b many embeddable parents0
      fvIn = .ok out)
    (hdc : envFind env b.dataclassName = some dc) :
    ∃ acc, processFields (rcOf fuel env glob) fuel env glob b fvIn.isEmpty
        (filteredFields dc b.only b.exclude)
        ⟨[], [], [], parents0 ++ [b.key], [], fvIn⟩ = .ok acc ∧
      out = ⟨assembleSchema b dc many embeddable acc,
        acc.parents, acc.nested, acc.fvs⟩ := by
  rw [createJsonSchema_succ, hdc] at h
  rcases bind_eq_ok.1 h with ⟨acc, hacc, hfin⟩
  cases hfin
  exact ⟨acc, hacc, rfl⟩

theorem assembleSchema_scalar_required (b : SchemaBuilder) (dc : Dataclass)
    (acc : BuildAcc) :
    jsonGet (assembleSchema b dc false false acc) "required" =
      some (.arr (acc.required.map jStr)) := by
  unfold assembleSchema
  cases hdoc : dc.doc <;> simp [jsonSet, jsonGet, dictGet, dictSet]

theorem assembleSchema_scalar_properties (b : SchemaBuilder)
    (dc : Dataclass) (acc : BuildAcc) :
    jsonGet (assembleSchema b dc false false acc) "properties" =
      some (.obj acc.properties) := by
  unfold assembleSchema
  cases hdoc : dc.doc <;> simp [jsonSet, jsonGet, dictGet, dictSet]

/-- The `required` array of an emitted schema, as a list of JSON values. -/
def requiredJson (j : Json) : List Json :=
  match jsonGet j "required" with
  | some (.arr l) => l
  | _ => []

/-- The `properties` entry of an emitted schema for a given key. -/
def propsGet (j : Json) (k : String) : Option Json :=
  match jsonGet j "properties" with
  | some (.obj pr) => dictGet pr k
  | _ => none

/-- Scalar root schema: `required` holds exactly the `dict_key`s of the
(kept) fields with neither default nor factory, in field order. -/
theorem createJsonSchema_scalar_required {fuel : Nat} {env : Env}
    {glob : Encoders} {b : SchemaBuilder} {parents0 : List BuilderKey}
    {fvIn : List (String × String)} {out : CreateOut} {dc : Dataclass}
    (h : createJsonSchema (fuel + 1) env glob b false false parents0 fvIn =
      .ok out)
    (hdc : envFind env b.dataclassName = some dc) :
    requiredJson out.schema =
      ((filteredFields dc b.only b.exclude).filter
        (fun f => f.default.isNone && f.factoryV.isNone)).map
        (fun f => jStr f.hints.dict_key) := by
  rcases createJsonSchema_parts h hdc with ⟨acc, hacc, hout⟩
  have hreq := processFields_required hacc
  subst hout
  unfold requiredJson
  rw [assembleSchema_scalar_required]
  simp only [List.nil_append] at hreq
  rw [hreq]
  simp [List.map_map]

/-- Scalar root schema: the `properties` entry of a field with a unique
`dict_key` is its fragment with the default applied. -/
theorem createJsonSchema_scalar_properties_mem {fuel : Nat} {env : Env}
    {glob : Encoders} {b : SchemaBuilder} {parents0 : List BuilderKey}
    {fvIn : List (String × String)} {out : CreateOut} {dc : Dataclass}
    {vf : DField}
    (h : createJsonSchema (fuel + 1) env glob b false false parents0 fvIn =
      .ok out)
    (hdc : envFind env b.dataclassName = some dc)
    (hmem : vf ∈ filteredFields dc b.only b.exclude)
    (hnodup : ((filteredFields dc b.only b.exclude).map
      (fun f => f.hints.dict_key)).Nodup) :
    ∃ ps r, getFieldSchema fuel env glob b.types ps vf.hints vf.ftype =
        .ok r ∧
      propsGet out.schema vf.hints.dict_key =
        some (applyDefault b.types vf r.1) := by
  rcases createJsonSchema_parts h hdc with ⟨acc, hacc, hout⟩
  rcases processFields_properties_mem hacc hmem hnodup with ⟨ps, r, hr, hget⟩
  subst hout
  unfold propsGet
  rw [assembleSchema_scalar_properties]
  exact ⟨ps, r, hr, hget⟩

theorem jStr_inj {a b : String} : jStr a = jStr b ↔ a = b := by
  simp [jStr]

/-- Membership in the emitted `required` array is decided by the
default/factory test alone (helper shared by several claims). -/
theorem required_mem_iff_defaults {fuel : Nat} {env : Env}
    {glob : Encoders} {b : SchemaBuilder} {parents0 : List BuilderKey}
    {fvIn : List (String × String)} {out : CreateOut} {dc : Dataclass}
    {f : DField}
    (h : createJsonSchema (fuel + 1) env glob b false false parents0 fvIn =
      .ok out)
    (hdc : envFind env b.dataclassName = some dc)
    (hnd : ((filteredFields dc b.only b.exclude).map
      (fun g => g.hints.dict_key)).Nodup)
    (hf : f ∈ filteredFields dc b.only b.exclude) :
    jStr f.hints.dict_key ∈ requiredJson out.schema ↔
      (f.default = none ∧ f.factoryV = none) := by
  rw [createJsonSchema_scalar_required h hdc]
  constructor
  · intro hmem
    rcases List.mem_map.1 hmem with ⟨g, hg, he⟩
    rcases List.mem_filter.1 hg with ⟨hgmem, hgdef⟩
    have hkeys : g.hints.dict_key = f.hints.dict_key := jStr_inj.1 he
    have hgf : g = f := by
      apply List.inj_on_of_nodup_map hnd hgmem hf
      exact hkeys
    subst hgf
    simp only [Bool.and_eq_true, Option.isNone_iff_eq_none] at hgdef
    exact hgdef
  · rintro ⟨hd, hfac⟩
    apply List.mem_map_of_mem
    apply List.mem_filter.2
    exact ⟨hf, by simp [hd, hfac]⟩

/-- **C4**: for every field of the record kept by the view, the field's
`dict_key` appears in the root schema's `required` array if and only if
the field has neither a static default value nor a default factory
(assuming the emitted `dict_key`s are distinct, §3 invariant 1). -/
theorem C4_required_iff_defaults {fuel : Nat} {env : Env}
    {glob : Encoders} {b : SchemaBuilder} {parents0 : List BuilderKey}
    {fvIn : List (String × String)} {out : CreateOut} {dc : Dataclass}
    {f : DField}
    (h : createJsonSchema (fuel + 1) env glob b false false parents0 fvIn =
      .ok out)
    (hdc : envFind env b.dataclassName = some dc)
    (hnd : ((filteredFields dc b.only b.exclude).map
      (fun g => g.hints.dict_key)).Nodup)
    (hf : f ∈ filteredFields dc b.only b.exclude) :
    jStr f.hints.dict_key ∈ requiredJson out.schema ↔
      (f.default = none ∧ f.factoryV = none) :=
  required_mem_iff_defaults h hdc hnd hf

/-! Concrete witness input for C4: a record with one plain field, one
field with a static default and one with a default factory. -/

/-- Witness field `a`: no default, no factory. -/
def wFieldA : DField :=
  ⟨"a", .pInt, none, { dict_key := "a" }, none, none⟩

/-- Witness field `c`: a default factory. -/
def wFieldC : DField :=
  ⟨"c", .pInt, none, { dict_key := "c" }, none, some (.vInt 2)⟩

/-- Witness dataclass for C4. -/
def wDC : Dataclass :=
  { name := "W", doc := none
    fields := [wFieldA,
      ⟨"bb", .pInt, some (jInt 1), { dict_key := "bb" },
        some (.vInt 1), none⟩,
      wFieldC] }

/-- Witness environment for C4. -/
def wEnv : Env := [wDC]

/-- Witness builder for C4. -/
def wB : SchemaBuilder := { dataclassName := "W" }

/-- The schema built for the C4 witness. -/
def wOut : CreateOut :=
  (createJsonSchema 9 wEnv noEncoders wB false false [] []).toOption.getD
    ⟨jNull, [], [], []⟩

theorem C4_required_iff_defaults_witness :
    jStr "a" ∈ requiredJson wOut.schema ↔
      (wFieldA.default = none ∧ wFieldA.factoryV = none) :=
  @C4_required_iff_defaults 8 wEnv noEncoders wB [] [] wOut wDC wFieldA
    (by rfl) (by rfl) (by decide) (List.mem_cons_self _ _)

/-! ## C3: the `Optional` fragment and `required` -/

/-- With no decoration hints, `_get_field_schema`'s tail is the identity. -/
theorem decorateFieldSchema_id {hints : FieldHints} (j : Json)
    (h1 : hints.description = none) (h2 : hints.examples = [])
    (h3 : hints.allowed_values = []) :
    decorateFieldSchema hints j = j := by
  unfold decorateFieldSchema applyHintS
  simp [h1, h2, h3]

/-- `getFieldSchemaCore` on `NoneType` with no encoder registered for
it. -/
theorem getFieldSchemaCore_noneType
    (rec' : PType → Except SErr (Json × Bool)) (env : Env)
    (glob : Encoders) (types : Encoders) (parents : List BuilderKey)
    (hints : FieldHints)
    (hencN : (types .pNoneType).bind (fun e => e.schemaFn) = none)
    (hglobN : glob .pNoneType = none) :
    getFieldSchemaCore rec' env glob types parents hints .pNoneType =
      .ok (decorateFieldSchema hints (.obj [("type", jStr "null")]),
        true) := by
  unfold getFieldSchemaCore
  rw [hencN, hglobN]
  rfl

/-- `getFieldSchemaCore` on a union with no encoder schema registered for
the union itself. -/
theorem getFieldSchemaCore_union
    (rec' : PType → Except SErr (Json × Bool)) (env : Env)
    (glob : Encoders) (types : Encoders) (parents : List BuilderKey)
    (hints : FieldHints) (args : List PType)
    (henc : (types (.pUnion args)).bind (fun e => e.schemaFn) = none)
    (hglob : glob (.pUnion args) = none) :
    getFieldSchemaCore rec' env glob types parents hints (.pUnion args) =
      ((args.mapM (fun a => do
          let r ← rec' a
          pure r.1)) >>= (fun schemas =>
        pure (Json.obj [("anyOf", Json.arr schemas)],
          !(args.any (fun a =>
            match a with | .pNoneType => true | _ => false))))) >>=
        (fun p => pure (decorateFieldSchema hints p.1, p.2)) := by
  unfold getFieldSchemaCore
  rw [henc, hglob]

/-- `_get_field_schema` on `NoneType` (with no encoder for it and no
decoration hints) is `{"type": "null"}` with `required = True`. -/
theorem getFieldSchema_noneType {fuel : Nat} {env : Env} {glob : Encoders}
    {types : Encoders} {parents : List BuilderKey} {hints : FieldHints}
    {r : Json × Bool}
    (h : getFieldSchema fuel env glob types parents hints .pNoneType =
      .ok r)
    (hencN : (types .pNoneType).bind (fun e => e.schemaFn) = none)
    (hglobN : glob .pNoneType = none)
    (h1 : hints.description = none) (h2 : hints.examples = [])
    (h3 : hints.allowed_values = []) :
    r = (.obj [("type", jStr "null")], true) := by
  cases fuel with
  | zero => simp [getFieldSchema] at h
  | succ m =>
    rw [getFieldSchema_succ,
      getFieldSchemaCore_noneType _ _ _ _ _ _ hencN hglobN] at h
    cases h
    rw [decorateFieldSchema_id _ h1 h2 h3]

/-- `_get_field_schema` on `Optional(T)` (no encoder schema for the whole
union, no decoration hints): the fragment is
`{anyOf: [<schema of T>, {type: "null"}]}`. -/
theorem getFieldSchema_optional {fuel : Nat} {env : Env} {glob : Encoders}
    {types : Encoders} {parents : List BuilderKey} {hints : FieldHints}
    {t : PType} {r : Json × Bool}
    (h : getFieldSchema fuel env glob types parents hints
      (.pUnion [t, .pNoneType]) = .ok r)
    (henc : (types (.pUnion [t, .pNoneType])).bind
      (fun e => e.schemaFn) = none)
    (hglob : glob (.pUnion [t, .pNoneType]) = none)
    (hencN : (types .pNoneType).bind (fun e => e.schemaFn) = none)
    (hglobN : glob .pNoneType = none)
    (h1 : hints.description = none) (h2 : hints.examples = [])
    (h3 : hints.allowed_values = []) :
    ∃ σ, r.1 = .obj
      [("anyOf", .arr [σ, .obj [("type", jStr "null")]])] := by
  cases fuel with
  | zero => simp [getFieldSchema] at h
  | succ m =>
    rw [getFieldSchema_succ,
      getFieldSchemaCore_union _ _ _ _ _ _ _ henc hglob] at h
    rcases bind_eq_ok.1 h with ⟨p, hp, hpure⟩
    rcases bind_eq_ok.1 hp with ⟨schemas, hschemas, hp2⟩
    simp only [List.mapM_cons, List.mapM_nil] at hschemas
    rcases bind_eq_ok.1 hschemas with ⟨x, hx, hrest1⟩
    rcases bind_eq_ok.1 hx with ⟨sigr, hsig, hpx⟩
    rcases bind_eq_ok.1 hrest1 with ⟨xs, hxs, hrest2⟩
    rcases bind_eq_ok.1 hxs with ⟨nr1, hnr1c, hrest3⟩
    rcases bind_eq_ok.1 hnr1c with ⟨nr, hnr, hpnr⟩
    cases hpx
    cases hpnr
    cases hrest3
    cases hrest2
    cases hp2
    cases hpure
    have hnull := getFieldSchema_noneType hnr hencN hglobN h1 h2 h3
    rw [hnull]
    refine ⟨sigr.1, ?_⟩
    simp only []
    rw [decorateFieldSchema_id _ h1 h2 h3]

/-- The `default` decoration never disturbs the `anyOf` entry. -/
theorem applyDefault_get_anyOf (types : Encoders) (vf : DField)
    (l : List (String × Json)) :
    jsonGet (applyDefault types vf (.obj l)) "anyOf" = dictGet l "anyOf" := by
  unfold applyDefault
  cases vf.default with
  | none => rfl
  | some dv =>
    rw [jsonGet_jsonSet_ne _ _ _ _ (by decide)]

/-! Witness/counterexample input for C3: the `OptionalCustom` dataclass of
`test_unit.py` (an `Optional[str]` field, a custom `str` encoder, no
default). -/

/-- The `name : Optional[str]` field of `OptionalCustom`. -/
def ocField : DField :=
  ⟨"name", .pUnion [.pStr, .pNoneType], none, { dict_key := "name" },
    none, none⟩

/-- The `OptionalCustom` dataclass. -/
def ocDC : Dataclass :=
  { name := "test_unit.OptionalCustom", doc := some "OptionalCustom."
    fields := [ocField] }

/-- Environment for the C3 input. -/
def ocEnv : Env := [ocDC]

/-- The `{str: CustomEncoder()}` table of the test. -/
def ocStrEnc : Encoders := fun t =>
  match t with
  | .pStr => some ⟨some (.obj [("type", jStr "string")]), fun j => j⟩
  | _ => none

/-- The builder `Serializer(OptionalCustom, type_encoders={str: ...})`
constructs. -/
def ocB : SchemaBuilder :=
  { dataclassName := "test_unit.OptionalCustom", types := ocStrEnc }

/-- The schema built for the C3 input. -/
def ocOut : CreateOut :=
  (createJsonSchema 9 ocEnv noEncoders ocB false false [] []).toOption.getD
    ⟨jNull, [], [], []⟩

/-- **C3 counterexample**: the `name` field is declared `Optional[str]`
and has neither default nor factory, yet its `dict_key` *is* listed in
the root schema's `required` array (exactly what
`test_unit__optional__custom_encoder__ok__nominal_case` asserts). -/
theorem C3_counterexample :
    ocField.ftype = .pUnion [.pStr, .pNoneType] ∧
    ocField.default = none ∧ ocField.factoryV = none ∧
    createJsonSchema 9 ocEnv noEncoders ocB false false [] [] =
      .ok ocOut ∧
    jStr "name" ∈ requiredJson ocOut.schema := by
  refine ⟨rfl, rfl, rfl, rfl, ?_⟩
  decide

/-- **C3 (amended)**: for a field declared `Optional(T)` (no encoder
schema registered for the union itself nor for `NoneType`, no decoration
hints), the emitted fragment carries
`anyOf: [<schema of T>, {type: "null"}]` (plus a `default` entry when a
static default exists), and the field's `dict_key` appears in the root
schema's `required` array iff the field has neither a static default nor
a default factory — optionality does not affect `required`. -/
theorem C3_optional_fragment_required {fuel : Nat} {env : Env}
    {glob : Encoders} {b : SchemaBuilder} {parents0 : List BuilderKey}
    {fvIn : List (String × String)} {out : CreateOut} {dc : Dataclass}
    {f : DField} {t : PType}
    (h : createJsonSchema (fuel + 1) env glob b false false parents0 fvIn =
      .ok out)
    (hdc : envFind env b.dataclassName = some dc)
    (hnd : ((filteredFields dc b.only b.exclude).map
      (fun g => g.hints.dict_key)).Nodup)
    (hf : f ∈ filteredFields dc b.only b.exclude)
    (ht : f.ftype = .pUnion [t, .pNoneType])
    (henc : (b.types (.pUnion [t, .pNoneType])).bind
      (fun e => e.schemaFn) = none)
    (hglob : glob (.pUnion [t, .pNoneType]) = none)
    (hencN : (b.types .pNoneType).bind (fun e => e.schemaFn) = none)
    (hglobN : glob .pNoneType = none)
    (h1 : f.hints.description = none) (h2 : f.hints.examples = [])
    (h3 : f.hints.allowed_values = []) :
    (∃ fr σ, propsGet out.schema f.hints.dict_key = some fr ∧
      jsonGet fr "anyOf" =
        some (.arr [σ, .obj [("type", jStr "null")]])) ∧
    (jStr f.hints.dict_key ∈ requiredJson out.schema ↔
      (f.default = none ∧ f.factoryV = none)) := by
  constructor
  · rcases createJsonSchema_scalar_properties_mem h hdc hf hnd
      with ⟨ps, r, hr, hget⟩
    rw [ht] at hr
    rcases getFieldSchema_optional hr henc hglob hencN hglobN h1 h2 h3
      with ⟨σ, hfrag⟩
    refine ⟨applyDefault b.types f r.1, σ, hget, ?_⟩
    rw [hfrag]
    rw [applyDefault_get_anyOf]
    rfl
  · exact required_mem_iff_defaults h hdc hnd hf

theorem C3_optional_fragment_required_witness :
    ((∃ fr σ, propsGet ocOut.schema "name" = some fr ∧
      jsonGet fr "anyOf" =
        some (.arr [σ, .obj [("type", jStr "null")]])) ∧
    (jStr "name" ∈ requiredJson ocOut.schema ↔
      (ocField.default = none ∧ ocField.factoryV = none))) :=
  @C3_optional_fragment_required 8 ocEnv noEncoders ocB [] [] ocOut ocDC
    ocField .pStr (by rfl) (by rfl) (by decide)
    (List.mem_cons_self _ _) rfl rfl rfl rfl rfl rfl rfl rfl

/-! ## C5: `json_schema(many=True)` after `nested_builders()` -/

/-- A minimal dataclass environment for the C5 trace. -/
def c5Env : Env :=
  [{ name := "Simple", doc := none
     fields := [⟨"name", .pStr, none, { dict_key := "name" },
       none, none⟩] }]

/-- The builder under test for C5. -/
def c5B : SchemaBuilder := { dataclassName := "Simple" }

/-- The C5 trace: a fresh builder, `nested_builders()` first, then
`json_schema(many=True)`; the returned schema. -/
def c5Result : Except SErr Json :=
  (nestedBuildersM 9 c5Env noEncoders c5B {}).bind (fun p =>
    (jsonSchemaM 9 c5Env noEncoders c5B p.2 true).map (fun q => q.1))

/-- **C5** (code bug): on a fresh builder, `json_schema(many=True)` does
return the `{type: "array", items: ...}` schema with `$schema` — but
after `nested_builders()` has been called on the same builder, it
returns the cached *scalar* object schema instead: `nested_builders`
primes `self._schema` with the `many=False` schema and
`json_schema(many=True)` consults exactly that slot (the two cache slots
are also named crosswise in the source).  The trace below shows the
returned top level is `{"type": "object"}` with no `"items"`. -/
theorem C5_many_after_nested_builders :
    ((jsonSchemaM 9 c5Env noEncoders c5B {} true).map
      (fun q => jsonGet q.1 "type")) = .ok (some (jStr "array")) ∧
    ((jsonSchemaM 9 c5Env noEncoders c5B {} true).map
      (fun q => jsonGet q.1 "items")).map Option.isSome = .ok true ∧
    (c5Result.map (fun j => jsonGet j "type")) =
      .ok (some (jStr "object")) ∧
    (c5Result.map (fun j => jsonGet j "items")) = .ok none ∧
    (c5Result.map (fun j => jsonGet j "$schema")) =
      .ok (some (jStr draft04)) :=
  ⟨rfl, rfl, rfl, rfl, rfl⟩

/-! ## C9: a type with no schema case fails the build -/

/-- Inside a successful field loop every field's `_get_field_schema`
succeeded (at whatever parents state it ran under). -/
theorem processFields_ok_fieldSchema {rc : RecCall} {fuel : Nat}
    {env : Env} {glob : Encoders} {b : SchemaBuilder} {noFV : Bool}
    {fs : List DField} {acc acc' : BuildAcc} {vf : DField}
    (h : processFields rc fuel env glob b noFV fs acc = .ok acc')
    (hf : vf ∈ fs) :
    ∃ ps r, getFieldSchema fuel env glob b.types ps vf.hints vf.ftype =
      .ok r := by
  induction fs generalizing acc with
  | nil => cases hf
  | cons f fs ih =>
    simp only [processFields] at h
    rcases bind_eq_ok.1 h with ⟨mid, hmid, hrest⟩
    rcases List.mem_cons.1 hf with heq | htail
    · subst heq
      rcases processField_spec hmid with ⟨r, hr, _, _⟩
      exact ⟨acc.parents, r, hr⟩
    · exact ih hrest htail

/-- `getFieldSchemaCore` on a class with no schema case raises
`SchemaError`. -/
theorem getFieldSchemaCore_pOther
    (rec' : PType → Except SErr (Json × Bool)) (env : Env)
    (glob : Encoders) (types : Encoders) (parents : List BuilderKey)
    (hints : FieldHints) (n : String)
    (henc : (types (.pOther n)).bind (fun e => e.schemaFn) = none)
    (hglob : glob (.pOther n) = none) :
    getFieldSchemaCore rec' env glob types parents hints (.pOther n) =
      .error (.schemaError ("Unable to create schema for " ++ n)) := by
  unfold getFieldSchemaCore
  rw [henc, hglob]
  rfl

/-- `_get_field_schema` never succeeds on a class with no schema case
and no encoder. -/
theorem getFieldSchema_pOther_fails {fuel : Nat} {env : Env}
    {glob : Encoders} {types : Encoders} {parents : List BuilderKey}
    {hints : FieldHints} {n : String} {r : Json × Bool}
    (henc : (types (.pOther n)).bind (fun e => e.schemaFn) = none)
    (hglob : glob (.pOther n) = none) :
    getFieldSchema fuel env glob types parents hints (.pOther n) ≠
      .ok r := by
  cases fuel with
  | zero => simp [getFieldSchema]
  | succ m =>
    rw [getFieldSchema_succ,
      getFieldSchemaCore_pOther _ _ _ _ _ _ _ henc hglob]
    simp

/-- **C9**: a (kept) field whose declared type matches no schema case
(`pOther`: not a primitive, enum, union, sequence, tuple, mapping,
NewType or dataclass) and for which no encoder is registered at any
scope makes `_create_json_schema` fail (with the `SchemaError`
compile-time error raised while building the serializer), never
succeed. -/
theorem C9_badtype_fails_build {fuel : Nat} {env : Env} {glob : Encoders}
    {b : SchemaBuilder} {many embeddable : Bool}
    {parents0 : List BuilderKey} {fvIn : List (String × String)}
    {dc : Dataclass} {f : DField}
    (hdc : envFind env b.dataclassName = some dc)
    (hf : f ∈ filteredFields dc b.only b.exclude)
    (hbad : ∃ n, f.ftype = .pOther n)
    (henc : (b.types f.ftype).bind (fun e => e.schemaFn) = none)
    (hglob : glob f.ftype = none) :
    ∀ out, createJsonSchema fuel env glob b many embeddable parents0
      fvIn ≠ .ok out := by
  intro out hok
  cases fuel with
  | zero => simp [createJsonSchema] at hok
  | succ m =>
    rcases createJsonSchema_parts hok hdc with ⟨acc, hacc, _⟩
    rcases processFields_ok_fieldSchema hacc hf with ⟨ps, r, hr⟩
    rcases hbad with ⟨n, hn⟩
    rw [hn] at hr henc hglob
    exact getFieldSchema_pOther_fails henc hglob hr

/-! Concrete witness input for C9: `Foo{n: Nested}` where `Nested` is a
plain class (the `test_unit__serializer__err__nested_not_dataclass`
scenario). -/

/-- The `n : Nested` field. -/
def c9Field : DField :=
  ⟨"n", .pOther "Nested", none, { dict_key := "n" }, none, none⟩

/-- The `Foo` dataclass with a non-dataclass field type. -/
def c9Env : Env :=
  [{ name := "Foo", doc := none, fields := [c9Field] }]

/-- The builder over `Foo`. -/
def c9B : SchemaBuilder := { dataclassName := "Foo" }

theorem C9_badtype_fails_build_witness :
    createJsonSchema 9 c9Env noEncoders c9B false false [] [] =
      .error (.schemaError "Unable to create schema for Nested") ∧
    ∀ out, createJsonSchema 9 c9Env noEncoders c9B false false [] [] ≠
      .ok out :=
  ⟨by rfl,
   @C9_badtype_fails_build 9 c9Env noEncoders c9B false false [] []
     (c9Env.headD ⟨"", none, []⟩) c9Field (by rfl)
     (List.mem_cons_self _ _) ⟨"Nested", rfl⟩ rfl rfl⟩

/-! ## The spec-modelled record serializer

`serpyco/serializer.py` and `serpyco/encoder.py` are not part of the
source tree (only their tests and callers are), so the record serializer
is modelled from the spec here (§4.4 dump/load, §3 invariant 2, §4.2
union decoding). -/

mutual

/-- Structural equality of Python values. -/
def pyBeq : PyValue → PyValue → Bool
  | .vNone, .vNone => true
  | .vBool a, .vBool b => a == b
  | .vInt a, .vInt b => a == b
  | .vFloat a, .vFloat b => a == b
  | .vStr a, .vStr b => a == b
  | .vEnum n a, .vEnum m b => n == m && a == b
  | .vList a, .vList b => pyBeqL a b
  | .vTuple a, .vTuple b => pyBeqL a b
  | .vDict a, .vDict b => pyBeqF a b
  | .vRecord n a, .vRecord m b => n == m && pyBeqL a b
  | _, _ => false

/-- Structural equality of Python value lists. -/
def pyBeqL : List PyValue → List PyValue → Bool
  | [], [] => true
  | x :: xs, y :: ys => pyBeq x y && pyBeqL xs ys
  | _, _ => false

/-- Structural equality of Python dict entries. -/
def pyBeqF : List (String × PyValue) → List (String × PyValue) → Bool
  | [], [] => true
  | (k, v) :: xs, (l, w) :: ys => k == l && pyBeq v w && pyBeqF xs ys
  | _, _ => false

end

mutual

theorem pyBeq_iff : ∀ a b : PyValue, pyBeq a b = true ↔ a = b
  | .vNone, .vNone => by simp [pyBeq]
  | .vBool _, .vBool _ => by simp [pyBeq]
  | .vInt _, .vInt _ => by simp [pyBeq]
  | .vFloat _, .vFloat _ => by simp [pyBeq]
  | .vStr _, .vStr _ => by simp [pyBeq]
  | .vEnum _ _, .vEnum _ _ => by simp [pyBeq]
  | .vList x, .vList y => by simp [pyBeq, pyBeqL_iff x y]
  | .vTuple x, .vTuple y => by simp [pyBeq, pyBeqL_iff x y]
  | .vDict x, .vDict y => by simp [pyBeq, pyBeqF_iff x y]
  | .vRecord n x, .vRecord m y => by simp [pyBeq, pyBeqL_iff x y]
  | .vNone, .vBool _ | .vNone, .vInt _ | .vNone, .vFloat _
  | .vNone, .vStr _ | .vNone, .vEnum _ _ | .vNone, .vList _
  | .vNone, .vTuple _ | .vNone, .vDict _ | .vNone, .vRecord _ _
  | .vBool _, .vNone | .vBool _, .vInt _ | .vBool _, .vFloat _
  | .vBool _, .vStr _ | .vBool _, .vEnum _ _ | .vBool _, .vList _
  | .vBool _, .vTuple _ | .vBool _, .vDict _ | .vBool _, .vRecord _ _
  | .vInt _, .vNone | .vInt _, .vBool _ | .vInt _, .vFloat _
  | .vInt _, .vStr _ | .vInt _, .vEnum _ _ | .vInt _, .vList _
  | .vInt _, .vTuple _ | .vInt _, .vDict _ | .vInt _, .vRecord _ _
  | .vFloat _, .vNone | .vFloat _, .vBool _ | .vFloat _, .vInt _
  | .vFloat _, .vStr _ | .vFloat _, .vEnum _ _ | .vFloat _, .vList _
  | .vFloat _, .vTuple _ | .vFloat _, .vDict _ | .vFloat _, .vRecord _ _
  | .vStr _, .vNone | .vStr _, .vBool _ | .vStr _, .vInt _
  | .vStr _, .vFloat _ | .vStr _, .vEnum _ _ | .vStr _, .vList _
  | .vStr _, .vTuple _ | .vStr _, .vDict _ | .vStr _, .vRecord _ _
  | .vEnum _ _, .vNone | .vEnum _ _, .vBool _ | .vEnum _ _, .vInt _
  | .vEnum _ _, .vFloat _ | .vEnum _ _, .vStr _ | .vEnum _ _, .vList _
  | .vEnum _ _, .vTuple _ | .vEnum _ _, .vDict _
  | .vEnum _ _, .vRecord _ _
  | .vList _, .vNone | .vList _, .vBool _ | .vList _, .vInt _
  | .vList _, .vFloat _ | .vList _, .vStr _ | .vList _, .vEnum _ _
  | .vList _, .vTuple _ | .vList _, .vDict _ | .vList _, .vRecord _ _
  | .vTuple _, .vNone | .vTuple _, .vBool _ | .vTuple _, .vInt _
  | .vTuple _, .vFloat _ | .vTuple _, .vStr _ | .vTuple _, .vEnum _ _
  | .vTuple _, .vList _ | .vTuple _, .vDict _ | .vTuple _, .vRecord _ _
  | .vDict _, .vNone | .vDict _, .vBool _ | .vDict _, .vInt _
  | .vDict _, .vFloat _ | .vDict _, .vStr _ | .vDict _, .vEnum _ _
  | .vDict _, .vList _ | .vDict _, .vTuple _ | .vDict _, .vRecord _ _
  | .vRecord _ _, .vNone | .vRecord _ _, .vBool _ | .vRecord _ _, .vInt _
  | .vRecord _ _, .vFloat _ | .vRecord _ _, .vStr _
  | .vRecord _ _, .vEnum _ _ | .vRecord _ _, .vList _
  | .vRecord _ _, .vTuple _ | .vRecord _ _, .vDict _ => by simp [pyBeq]

theorem pyBeqL_iff : ∀ a b : List PyValue, pyBeqL a b = true ↔ a = b
  | [], [] => by simp [pyBeqL]
  | x :: xs, y :: ys => by
      simp [pyBeqL, pyBeq_iff x y, pyBeqL_iff xs ys]
  | [], _ :: _ | _ :: _, [] => by simp [pyBeqL]

theorem pyBeqF_iff :
    ∀ a b : List (String × PyValue), pyBeqF a b = true ↔ a = b
  | [], [] => by simp [pyBeqF]
  | (k, v) :: xs, (l, w) :: ys => by
      simp [pyBeqF, pyBeq_iff v w, pyBeqF_iff xs ys, and_assoc]
  | [], _ :: _ | _ :: _, [] => by simp [pyBeqF]

end

instance : DecidableEq PyValue :=
  fun a b => decidable_of_iff (pyBeq a b = true) (pyBeq_iff a b)

/-- The JSON shape of a value (used to state disjoint union decoding). -/
inductive Shape where
  | sNull | sBool | sInt | sFloat | sStr | sArr | sObj
deriving DecidableEq, Repr

/-- The shape of a JSON value. -/
def jsonShape : Json → Shape
  | .prim .null => .sNull
  | .prim (.b _) => .sBool
  | .prim (.i _) => .sInt
  | .prim (.f _) => .sFloat
  | .prim (.s _) => .sStr
  | .arr _ => .sArr
  | .obj _ => .sObj

/-- The shape of a primitive. -/
def primShape (p : JsonPrim) : Shape :=
  match p with
  | .null => .sNull
  | .b _ => .sBool
  | .i _ => .sInt
  | .f _ => .sFloat
  | .s _ => .sStr

/-- All shapes (the shape set of `Any`). -/
def allShapes : List Shape :=
  [.sNull, .sBool, .sInt, .sFloat, .sStr, .sArr, .sObj]

mutual

/-- The set of JSON shapes a value of the given type may dump to. -/
def typeShapes : PType → List Shape
  | .pStr => [.sStr]
  | .pInt => [.sInt]
  | .pFloat => [.sFloat]
  | .pBool => [.sBool]
  | .pNoneType => [.sNull]
  | .pAny => allShapes
  | .pUnion args => typeShapesL args
  | .pEnum _ _ members => members.map (fun m => primShape m.2)
  | .pMapping _ _ => [.sObj]
  | .pTupleF _ => [.sArr]
  | .pTupleV _ => [.sArr]
  | .pList _ => [.sArr]
  | .pNewType _ sup => typeShapes sup
  | .pDataclass _ => [.sObj]
  | .pOther _ => []

/-- Shape sets of a list of union variants. -/
def typeShapesL : List PType → List Shape
  | [] => []
  | t :: ts => typeShapes t ++ typeShapesL ts

end

/-- Two shape sets with no common element. -/
def disjShapes (a b : List Shape) : Bool :=
  a.all (fun x => !b.contains x)

/-- Duplicate-freedom as a boolean. -/
def nodupBeq {α : Type} [DecidableEq α] : List α → Bool
  | [] => true
  | x :: xs => !xs.contains x && nodupBeq xs

/-- Pairwise shape-disjointness of union variants ("disjoint decoding"). -/
def pairwiseDisj : List PType → Bool
  | [] => true
  | t :: ts =>
    ts.all (fun u => disjShapes (typeShapes t) (typeShapes u)) &&
    pairwiseDisj ts

mutual

/-- Well-formedness of a type for round-trip serialization, following the
spec's commitments: union variants decode disjointly (§3: "disjoint
decoding attempted in declared order"), enum members have distinct names
and distinct non-null values. -/
def wfType : PType → Bool
  | .pUnion args => pairwiseDisj args && wfTypeL args
  | .pEnum _ _ members =>
    nodupBeq (members.map Prod.fst) && nodupBeq (members.map Prod.snd) &&
    members.all (fun m => !(m.2 == JsonPrim.null))
  | .pMapping k v => wfType k && wfType v
  | .pTupleF args => wfTypeL args
  | .pTupleV it => wfType it
  | .pList it => wfType it
  | .pNewType _ sup => wfType sup
  | _ => true

/-- Well-formedness over a list of types. -/
def wfTypeL : List PType → Bool
  | [] => true
  | t :: ts => wfType t && wfTypeL ts

end

/-- Well-formedness of a dataclass environment for round-trip claims:
distinct `dict_key`s (§3 invariant 1), no ignored fields, no field-level
views, well-formed field types. -/
def wfEnv (env : Env) : Bool :=
  env.all (fun dc =>
    nodupBeq (dc.fields.map (fun f => f.hints.dict_key)) &&
    dc.fields.all (fun f =>
      !f.hints.ignore && f.hints.only.isEmpty &&
      f.hints.exclude.isEmpty && wfType f.ftype))

/-- Serializer errors (`ValidationError` / `InvalidValue` at run time). -/
inductive LErr where
  | fuelOut : LErr
  | invalidValue : String → LErr
  | validationError : List (String × String) → LErr
deriving DecidableEq, Repr

/-- The field-filtering of the serializer's plan, same rule as the
schema builder's (`exclude` wins over `only`, `ignore` drops). -/
def planKeeps (only exclude : List String) (f : DField) : Bool :=
  !(f.hints.ignore
    || (!only.isEmpty && !only.contains f.name)
    || (!exclude.isEmpty && exclude.contains f.name))

/-- Serializer errors are raised with `Except`; see `LErr`. -/
def SRes (α : Type) : Type := Except LErr α

mutual

/-- Modelled from the spec: `Serializer.dump` (§4.4), value → JSON tree.
Missing from `src/` (`serpyco/serializer.py` is absent); the model
follows §4.4 step 2: each plan field is dumped through its field codec;
if the dumped value is `null`, the serializer has `omit_none=true` and
the field is truly optional, the key is omitted, else it is written
under `dict_key`.  Hooks, getters and `cast_on_load` are not modelled
(no claim mentions them).  Union dump dispatches on the runtime variant
(first variant that accepts the value, §4.2). -/
def dumpValue (fuel : Nat) (env : Env) (omitNone : Bool)
    (only exclude : List String) : PType → PyValue → Except LErr Json :=
  fun t v =>
  match fuel with
  | 0 => .error .fuelOut
  | fuel + 1 =>
    match t, v with
    | .pStr, .vStr s => .ok (jStr s)
    | .pInt, .vInt i => .ok (jInt i)
    | .pFloat, .vFloat x => .ok (.prim (.f x))
    | .pBool, .vBool b => .ok (jBool b)
    | .pNoneType, .vNone => .ok jNull
    | .pAny, .vNone => .ok jNull
    | .pAny, .vBool b => .ok (jBool b)
    | .pAny, .vInt i => .ok (jInt i)
    | .pAny, .vFloat x => .ok (.prim (.f x))
    | .pAny, .vStr s => .ok (jStr s)
    | .pAny, .vList items =>
      (items.mapM (dumpValue fuel env omitNone only exclude .pAny)).map
        Json.arr
    | .pAny, .vDict entries =>
      (entries.mapM (fun p =>
        (dumpValue fuel env omitNone only exclude .pAny p.2).map
          (fun jw => (p.1, jw)))).map Json.obj
    | .pUnion args, w => dumpFirst fuel env omitNone only exclude args w
    | .pEnum n _ members, .vEnum n' m =>
      if n' = n then
        match members.find? (fun p => p.1 = m) with
        | some p => .ok (.prim p.2)
        | none => .error (.invalidValue "unknown enum member")
      else .error (.invalidValue "enum type mismatch")
    | .pMapping _ vt, .vDict entries =>
      (entries.mapM (fun p =>
        (dumpValue fuel env omitNone only exclude vt p.2).map
          (fun jw => (p.1, jw)))).map Json.obj
    | .pTupleF args, .vTuple items =>
      if args.length = items.length then
        ((args.zip items).mapM (fun p =>
          dumpValue fuel env omitNone only exclude p.1 p.2)).map Json.arr
      else .error (.invalidValue "tuple arity mismatch")
    | .pTupleV it, .vTuple items =>
      (items.mapM (dumpValue fuel env omitNone only exclude it)).map
        Json.arr
    | .pList it, .vList items =>
      (items.mapM (dumpValue fuel env omitNone only exclude it)).map
        Json.arr
    | .pNewType _ sup, w => dumpValue fuel env omitNone only exclude sup w
    | .pDataclass n, .vRecord n' fvals =>
      if n' = n then
        match envFind env n with
        | some dc =>
          if dc.fields.length = fvals.length then
            (dumpRecordFields fuel env omitNone only exclude
              (dc.fields.zip fvals)).map Json.obj
          else .error (.invalidValue "field count mismatch")
        | none => .error (.invalidValue "not a dataclass")
      else .error (.invalidValue "record type mismatch")
    | _, _ => .error (.invalidValue "value does not match type")

/-- Union dump: dispatch on the runtime variant, first accepting variant
in declared order. -/
def dumpFirst (fuel : Nat) (env : Env) (omitNone : Bool)
    (only exclude : List String) :
    List PType → PyValue → Except LErr Json :=
  fun args v =>
  match fuel with
  | 0 => .error .fuelOut
  | fuel + 1 =>
    match args with
    | [] => .error (.invalidValue "no union variant matched")
    | a :: rest =>
      match dumpValue fuel env omitNone only exclude a v with
      | .ok j => .ok j
      | .error _ => dumpFirst fuel env omitNone only exclude rest v

/-- The per-field step of `dump` on a record (§4.4 step 2). -/
def dumpRecordFields (fuel : Nat) (env : Env) (omitNone : Bool)
    (only exclude : List String) :
    List (DField × PyValue) → Except LErr (List (String × Json)) :=
  fun l =>
  match fuel with
  | 0 => .error .fuelOut
  | fuel + 1 =>
    match l with
    | [] => .ok []
    | (f, val) :: rest =>
      if planKeeps only exclude f then
        match dumpValue fuel env omitNone f.hints.only f.hints.exclude
          f.ftype val with
        | .ok jf =>
          (dumpRecordFields fuel env omitNone only exclude rest).map
            (fun tail =>
              if jf = jNull && omitNone && isOptionalT f.ftype then tail
              else (f.hints.dict_key, jf) :: tail)
        | .error e => .error e
      else
        dumpRecordFields fuel env omitNone only exclude rest

end

mutual

/-- Modelled from the spec: `Serializer.load` (§4.4), JSON tree → value.
Missing from `src/`; the model follows §4.4 step 3 and §3 invariant 2:
each field reads its `dict_key`; a missing key applies the default, then
the factory, then `None` for an optional type, and is an error
otherwise.  Unions are decoded by trying each variant in declared order
(`UnionFieldEncoder`).  `cast_on_load` and hooks are not modelled. -/
def loadValue (fuel : Nat) (env : Env) (only exclude : List String) :
    PType → Json → Except LErr PyValue :=
  fun t j =>
  match fuel with
  | 0 => .error .fuelOut
  | fuel + 1 =>
    match t, j with
    | .pStr, .prim (.s s) => .ok (.vStr s)
    | .pInt, .prim (.i i) => .ok (.vInt i)
    | .pFloat, .prim (.f x) => .ok (.vFloat x)
    | .pBool, .prim (.b b) => .ok (.vBool b)
    | .pNoneType, .prim .null => .ok .vNone
    | .pAny, .prim .null => .ok .vNone
    | .pAny, .prim (.b b) => .ok (.vBool b)
    | .pAny, .prim (.i i) => .ok (.vInt i)
    | .pAny, .prim (.f x) => .ok (.vFloat x)
    | .pAny, .prim (.s s) => .ok (.vStr s)
    | .pAny, .arr items =>
      (items.mapM (loadValue fuel env only exclude .pAny)).map .vList
    | .pAny, .obj entries =>
      (entries.mapM (fun p =>
        (loadValue fuel env only exclude .pAny p.2).map
          (fun w => (p.1, w)))).map .vDict
    | .pUnion args, jj => loadFirst fuel env only exclude args jj
    | .pEnum n _ members, .prim p =>
      match members.find? (fun q => q.2 = p) with
      | some q => .ok (.vEnum n q.1)
      | none => .error (.invalidValue "enum value not found")
    | .pMapping _ vt, .obj entries =>
      (entries.mapM (fun p =>
        (loadValue fuel env only exclude vt p.2).map
          (fun w => (p.1, w)))).map .vDict
    | .pTupleF args, .arr items =>
      if args.length = items.length then
        ((args.zip items).mapM (fun p =>
          loadValue fuel env only exclude p.1 p.2)).map .vTuple
      else .error (.invalidValue "tuple arity mismatch")
    | .pTupleV it, .arr items =>
      (items.mapM (loadValue fuel env only exclude it)).map .vTuple
    | .pList it, .arr items =>
      (items.mapM (loadValue fuel env only exclude it)).map .vList
    | .pNewType _ sup, jj => loadValue fuel env only exclude sup jj
    | .pDataclass n, .obj entries =>
      match envFind env n with
      | some dc =>
        (loadRecordFields fuel env entries dc.fields).map (.vRecord n)
      | none => .error (.invalidValue "not a dataclass")
    | _, _ => .error (.invalidValue "value does not match type")

/-- Union load: try each variant in declared order, first success wins;
`InvalidValue` when all fail (`UnionFieldEncoder.load`). -/
def loadFirst (fuel : Nat) (env : Env) (only exclude : List String) :
    List PType → Json → Except LErr PyValue :=
  fun args j =>
  match fuel with
  | 0 => .error .fuelOut
  | fuel + 1 =>
    match args with
    | [] => .error (.invalidValue "no union variant matched")
    | a :: rest =>
      match loadValue fuel env only exclude a j with
      | .ok v => .ok v
      | .error _ => loadFirst fuel env only exclude rest j

/-- The per-field step of `load` on a record (§4.4 step 3, §3 inv. 2). -/
def loadRecordFields (fuel : Nat) (env : Env)
    (entries : List (String × Json)) :
    List DField → Except LErr (List PyValue) :=
  fun fields =>
  match fuel with
  | 0 => .error .fuelOut
  | fuel + 1 =>
    match fields with
    | [] => .ok []
    | f :: rest =>
      let hd : Except LErr PyValue :=
        match dictGet entries f.hints.dict_key with
        | some jv =>
          loadValue fuel env f.hints.only f.hints.exclude f.ftype jv
        | none =>
          match f.defaultV with
          | some d => .ok d
          | none =>
            match f.factoryV with
            | some fv => .ok fv
            | none =>
              if isOptionalT f.ftype then .ok .vNone
              else .error (.validationError
                [(f.hints.dict_key, "is a required property")])
      match hd with
      | .ok v =>
        (loadRecordFields fuel env entries rest).map (fun tail => v :: tail)
      | .error e => .error e

end

/-- The value a missing key loads to (default, then factory, then `None`
for optionals). -/
def defaultChainIsNone (f : DField) : Bool :=
  match f.defaultV with
  | some d => d = .vNone
  | none =>
    match f.factoryV with
    | some fv => fv = .vNone
    | none => true

mutual

/-- The condition under which `omit_none=true` keeps `load ∘ dump` the
identity: every optional field holding `None` anywhere in the value must
reload to `None` from a missing key (its default chain yields `None`). -/
def omitSafe (env : Env) : PyValue → Bool
  | .vList items => omitSafeL env items
  | .vTuple items => omitSafeL env items
  | .vDict entries => omitSafeF env entries
  | .vRecord n fvals =>
    (match envFind env n with
     | some dc => omitSafeFields env dc.fields fvals
     | none => true)
  | _ => true

/-- `omitSafe` over list elements. -/
def omitSafeL (env : Env) : List PyValue → Bool
  | [] => true
  | v :: vs => omitSafe env v && omitSafeL env vs

/-- `omitSafe` over dict entries. -/
def omitSafeF (env : Env) : List (String × PyValue) → Bool
  | [] => true
  | p :: ps => omitSafe env p.2 && omitSafeF env ps

/-- `omitSafe` over a record's fields and values. -/
def omitSafeFields (env : Env) : List DField → List PyValue → Bool
  | _, [] => true
  | [], _ :: _ => true
  | f :: fs, v :: vs =>
    (!(v == PyValue.vNone) || !isOptionalT f.ftype ||
      defaultChainIsNone f) &&
    omitSafe env v && omitSafeFields env fs vs

end

/-! ## Shape lemmas (dump and load respect `typeShapes`) -/

theorem jsonShape_prim (p : JsonPrim) :
    jsonShape (.prim p) = primShape p := by
  cases p <;> rfl

theorem mem_allShapes (s : Shape) : s ∈ allShapes := by
  cases s <;> decide

theorem exceptMap_eq_ok {eps alpha beta : Type} {f : alpha → beta}
    {e : Except eps alpha} {b : beta} (h : Except.map f e = .ok b) :
    ∃ a, e = .ok a ∧ f a = b := by
  cases e with
  | error err => simp [Except.map] at h
  | ok a =>
    refine ⟨a, rfl, ?_⟩
    simpa [Except.map] using h

/-- A dumped value's shape is among its type's shapes. -/
theorem dump_shape (fuel : Nat) :
    (∀ env oN o e t v j, dumpValue fuel env oN o e t v = .ok j →
      jsonShape j ∈ typeShapes t) ∧
    (∀ env oN o e args v j, dumpFirst fuel env oN o e args v = .ok j →
      jsonShape j ∈ typeShapesL args) := by
  induction fuel with
  | zero =>
    constructor
    · intro env oN o e t v j h
      simp [dumpValue] at h
    · intro env oN o e args v j h
      simp [dumpFirst] at h
  | succ m ih =>
    obtain ⟨ihV, ihF⟩ := ih
    constructor
    · intro env oN o e t v j h
      cases t with
      | pStr =>
        cases v
        case vStr s =>
          simp only [dumpValue] at h
          cases h
          simp [jsonShape, jStr, typeShapes]
        all_goals simp [dumpValue] at h
      | pInt =>
        cases v
        case vInt i =>
          simp only [dumpValue] at h
          cases h
          simp [jsonShape, jInt, typeShapes]
        all_goals simp [dumpValue] at h
      | pFloat =>
        cases v
        case vFloat x =>
          simp only [dumpValue] at h
          cases h
          simp [jsonShape, typeShapes]
        all_goals simp [dumpValue] at h
      | pBool =>
        cases v
        case vBool bv =>
          simp only [dumpValue] at h
          cases h
          simp [jsonShape, jBool, typeShapes]
        all_goals simp [dumpValue] at h
      | pNoneType =>
        cases v
        case vNone =>
          simp only [dumpValue] at h
          cases h
          simp [jsonShape, jNull, typeShapes]
        all_goals simp [dumpValue] at h
      | pAny =>
        cases v
        case vNone =>
          simp only [dumpValue] at h
          cases h
          exact mem_allShapes _
        case vBool bv =>
          simp only [dumpValue] at h
          cases h
          exact mem_allShapes _
        case vInt i =>
          simp only [dumpValue] at h
          cases h
          exact mem_allShapes _
        case vFloat x =>
          simp only [dumpValue] at h
          cases h
          exact mem_allShapes _
        case vStr s =>
          simp only [dumpValue] at h
          cases h
          exact mem_allShapes _
        case vList items =>
          simp only [dumpValue] at h
          rcases exceptMap_eq_ok h with ⟨a, _, hj⟩
          subst hj
          exact mem_allShapes _
        case vDict entries =>
          simp only [dumpValue] at h
          rcases exceptMap_eq_ok h with ⟨a, _, hj⟩
          subst hj
          exact mem_allShapes _
        all_goals simp [dumpValue] at h
      | pUnion args =>
        simp only [dumpValue] at h
        simpa [typeShapes] using ihF env oN o e args v j h
      | pEnum n doc members =>
        cases v
        case vEnum n2 mn =>
          simp only [dumpValue] at h
          by_cases hn : n2 = n
          · rw [if_pos hn] at h
            cases hfind : members.find? (fun p => p.1 = mn) with
            | some p =>
              rw [hfind] at h
              cases h
              rw [jsonShape_prim]
              simp only [typeShapes]
              exact List.mem_map_of_mem (fun q => primShape q.2)
                (List.mem_of_find?_eq_some hfind)
            | none =>
              rw [hfind] at h
              simp at h
          · rw [if_neg hn] at h
            simp at h
        all_goals simp [dumpValue] at h
      | pMapping kt vt =>
        cases v
        case vDict entries =>
          simp only [dumpValue] at h
          rcases exceptMap_eq_ok h with ⟨a, _, hj⟩
          subst hj
          simp [jsonShape, typeShapes]
        all_goals simp [dumpValue] at h
      | pTupleF args =>
        cases v
        case vTuple items =>
          simp only [dumpValue] at h
          by_cases hlen : args.length = items.length
          · rw [if_pos hlen] at h
            rcases exceptMap_eq_ok h with ⟨a, _, hj⟩
            subst hj
            simp [jsonShape, typeShapes]
          · rw [if_neg hlen] at h
            simp at h
        all_goals simp [dumpValue] at h
      | pTupleV it =>
        cases v
        case vTuple items =>
          simp only [dumpValue] at h
          rcases exceptMap_eq_ok h with ⟨a, _, hj⟩
          subst hj
          simp [jsonShape, typeShapes]
        all_goals simp [dumpValue] at h
      | pList it =>
        cases v
        case vList items =>
          simp only [dumpValue] at h
          rcases exceptMap_eq_ok h with ⟨a, _, hj⟩
          subst hj
          simp [jsonShape, typeShapes]
        all_goals simp [dumpValue] at h
      | pNewType nn sup =>
        simp only [dumpValue] at h
        simpa [typeShapes] using ihV env oN o e sup v j h
      | pDataclass n =>
        cases v
        case vRecord n2 fvals =>
          simp only [dumpValue] at h
          by_cases hn : n2 = n
          · rw [if_pos hn] at h
            cases hdc : envFind env n with
            | some dc =>
              rw [hdc] at h
              dsimp only at h
              by_cases hlen : dc.fields.length = fvals.length
              · rw [if_pos hlen] at h
                rcases exceptMap_eq_ok h with ⟨a, _, hj⟩
                subst hj
                simp [jsonShape, typeShapes]
              · rw [if_neg hlen] at h
                simp at h
            | none =>
              rw [hdc] at h
              simp at h
          · rw [if_neg hn] at h
            simp at h
        all_goals simp [dumpValue] at h
      | pOther n =>
        cases v <;> simp [dumpValue] at h
    · intro env oN o e args v j h
      cases args with
      | nil => simp [dumpFirst] at h
      | cons a rest =>
        simp only [dumpFirst] at h
        cases hd : dumpValue m env oN o e a v with
        | ok jv =>
          rw [hd] at h
          dsimp only at h
          cases h
          simp only [typeShapesL, List.mem_append]
          exact Or.inl (ihV env oN o e a v _ hd)
        | error err =>
          rw [hd] at h
          dsimp only at h
          simp only [typeShapesL, List.mem_append]
          exact Or.inr (ihF env oN o e rest v j h)

/-- A loadable value's shape is among its type's shapes. -/
theorem load_shape (fuel : Nat) :
    (∀ env o e t j v, loadValue fuel env o e t j = .ok v →
      jsonShape j ∈ typeShapes t) ∧
    (∀ env o e args j v, loadFirst fuel env o e args j = .ok v →
      jsonShape j ∈ typeShapesL args) := by
  induction fuel with
  | zero =>
    constructor
    · intro env o e t j v h
      simp [loadValue] at h
    · intro env o e args j v h
      simp [loadFirst] at h
  | succ m ih =>
    obtain ⟨ihV, ihF⟩ := ih
    constructor
    · intro env o e t j v h
      cases t with
      | pStr =>
        cases j with
        | prim p =>
          cases p
          case s s => simp [jsonShape, typeShapes]
          all_goals simp [loadValue] at h
        | arr l => simp [loadValue] at h
        | obj l => simp [loadValue] at h
      | pInt =>
        cases j with
        | prim p =>
          cases p
          case i i => simp [jsonShape, typeShapes]
          all_goals simp [loadValue] at h
        | arr l => simp [loadValue] at h
        | obj l => simp [loadValue] at h
      | pFloat =>
        cases j with
        | prim p =>
          cases p
          case f x => simp [jsonShape, typeShapes]
          all_goals simp [loadValue] at h
        | arr l => simp [loadValue] at h
        | obj l => simp [loadValue] at h
      | pBool =>
        cases j with
        | prim p =>
          cases p
          case b bv => simp [jsonShape, typeShapes]
          all_goals simp [loadValue] at h
        | arr l => simp [loadValue] at h
        | obj l => simp [loadValue] at h
      | pNoneType =>
        cases j with
        | prim p =>
          cases p
          case null => simp [jsonShape, typeShapes]
          all_goals simp [loadValue] at h
        | arr l => simp [loadValue] at h
        | obj l => simp [loadValue] at h
      | pAny => exact mem_allShapes _
      | pUnion args =>
        simp only [loadValue] at h
        simpa [typeShapes] using ihF env o e args j v h
      | pEnum n doc members =>
        cases j with
        | prim p =>
          simp only [loadValue] at h
          cases hfind : members.find? (fun q => q.2 = p) with
          | some q =>
            have hq2 : q.2 = p := by
              have := List.find?_some hfind
              simpa using this
            rw [jsonShape_prim, ← hq2]
            simp only [typeShapes]
            exact List.mem_map_of_mem (fun r => primShape r.2)
              (List.mem_of_find?_eq_some hfind)
          | none =>
            rw [hfind] at h
            simp at h
        | arr l => simp [loadValue] at h
        | obj l => simp [loadValue] at h
      | pMapping kt vt =>
        cases j with
        | prim p => cases p <;> simp [loadValue] at h
        | arr l => simp [loadValue] at h
        | obj l => simp [jsonShape, typeShapes]
      | pTupleF args =>
        cases j with
        | prim p => cases p <;> simp [loadValue] at h
        | arr l => simp [jsonShape, typeShapes]
        | obj l => simp [loadValue] at h
      | pTupleV it =>
        cases j with
        | prim p => cases p <;> simp [loadValue] at h
        | arr l => simp [jsonShape, typeShapes]
        | obj l => simp [loadValue] at h
      | pList it =>
        cases j with
        | prim p => cases p <;> simp [loadValue] at h
        | arr l => simp [jsonShape, typeShapes]
        | obj l => simp [loadValue] at h
      | pNewType nn sup =>
        simp only [loadValue] at h
        simpa [typeShapes] using ihV env o e sup j v h
      | pDataclass n =>
        cases j with
        | prim p => cases p <;> simp [loadValue] at h
        | arr l => simp [loadValue] at h
        | obj l => simp [jsonShape, typeShapes]
      | pOther n =>
        cases j with
        | prim p => cases p <;> simp [loadValue] at h
        | arr l => simp [loadValue] at h
        | obj l => simp [loadValue] at h
    · intro env o e args j v h
      cases args with
      | nil => simp [loadFirst] at h
      | cons a rest =>
        simp only [loadFirst] at h
        cases hd : loadValue m env o e a j with
        | ok w =>
          simp only [typeShapesL, List.mem_append]
          exact Or.inl (ihV env o e a j w hd)
        | error err =>
          rw [hd] at h
          dsimp only at h
          simp only [typeShapesL, List.mem_append]
          exact Or.inr (ihF env o e rest j v h)

/-! ## Disjoint-union and enum lemmas -/

theorem nodupBeq_iff {α : Type} [DecidableEq α] (l : List α) :
    nodupBeq l = true ↔ l.Nodup := by
  induction l with
  | nil => simp [nodupBeq]
  | cons x xs ih => simp [nodupBeq, ih, List.nodup_cons]

theorem disjShapes_spec {a b : List Shape} (h : disjShapes a b = true)
    {s : Shape} (hs : s ∈ a) : s ∉ b := by
  simp only [disjShapes, List.all_eq_true] at h
  simpa using h s hs

theorem typeShapesL_mem {l : List PType} {s : Shape} :
    s ∈ typeShapesL l ↔ ∃ u ∈ l, s ∈ typeShapes u := by
  induction l with
  | nil => simp [typeShapesL]
  | cons t ts ih => simp [typeShapesL, ih]

theorem pairwiseDisj_cons {a : PType} {l : List PType}
    (h : pairwiseDisj (a :: l) = true) :
    (∀ u ∈ l, disjShapes (typeShapes a) (typeShapes u) = true) ∧
    pairwiseDisj l = true := by
  simp only [pairwiseDisj, Bool.and_eq_true, List.all_eq_true] at h
  exact h

/-- Under pairwise shape-disjointness, a shape identifies its variant. -/
theorem pairwiseDisj_mem {l : List PType} (h : pairwiseDisj l = true)
    {x y : PType} (hx : x ∈ l) (hy : y ∈ l) {s : Shape}
    (hsx : s ∈ typeShapes x) (hsy : s ∈ typeShapes y) : x = y := by
  induction l with
  | nil => cases hx
  | cons a rest ih =>
    rcases pairwiseDisj_cons h with ⟨hall, htail⟩
    rcases List.mem_cons.1 hx with hxa | hxr
    · rcases List.mem_cons.1 hy with hya | hyr
      · rw [hxa, hya]
      · exfalso
        subst hxa
        exact disjShapes_spec (hall y hyr) hsx hsy
    · rcases List.mem_cons.1 hy with hya | hyr
      · exfalso
        subst hya
        exact disjShapes_spec (hall x hxr) hsy hsx
      · exact ih htail hxr hyr

/-- Loading at a type whose shape set misses the value's shape fails. -/
theorem load_fails_of_shape {fuel : Nat} {env : Env} {o e : List String}
    {t : PType} {j : Json} (hs : jsonShape j ∉ typeShapes t) :
    ∀ v, loadValue fuel env o e t j ≠ .ok v := by
  intro v hok
  exact hs ((load_shape fuel).1 env o e t j v hok)

/-- Only `None` dumps to JSON `null` under a pairwise-disjoint union
containing `NoneType` (used for the `omit_none` analysis). -/
theorem dumpFirst_null (fuel : Nat) :
    ∀ {env : Env} {oN : Bool} {o e : List String} {args : List PType}
      {v : PyValue},
      pairwiseDisj args = true → .pNoneType ∈ args →
      dumpFirst fuel env oN o e args v = .ok jNull → v = .vNone := by
  induction fuel with
  | zero =>
    intro env oN o e args v _ _ h
    simp [dumpFirst] at h
  | succ m ih =>
    intro env oN o e args v hdisj hmem h
    cases args with
    | nil => simp [dumpFirst] at h
    | cons a rest =>
      simp only [dumpFirst] at h
      cases hd : dumpValue m env oN o e a v with
      | ok jv =>
        rw [hd] at h
        dsimp only at h
        cases h
        -- the succeeding variant has the null shape, so it is `NoneType`
        have hsh : jsonShape jNull ∈ typeShapes a :=
          (dump_shape m).1 env oN o e a v jNull hd
        have hnull : jsonShape jNull ∈ typeShapes PType.pNoneType := by
          simp [jsonShape, jNull, typeShapes]
        have haeq : a = .pNoneType :=
          pairwiseDisj_mem hdisj (List.mem_cons_self a rest) hmem hsh hnull
        subst haeq
        cases m with
        | zero => simp [dumpValue] at hd
        | succ k =>
          cases v
          case vNone => rfl
          all_goals simp [dumpValue] at hd
      | error err =>
        rw [hd] at h
        dsimp only at h
        -- `NoneType` cannot be the failing head (its dump of any value
        -- with null shape succeeds); in any case the null shape lives in
        -- the rest of the union
        rcases pairwiseDisj_cons hdisj with ⟨hall, htail⟩
        rcases List.mem_cons.1 hmem with hna | hnr
        · exfalso
          have hsh : jsonShape jNull ∈ typeShapesL rest :=
            (dump_shape m).2 env oN o e rest v jNull h
          rcases typeShapesL_mem.1 hsh with ⟨u, hu, hsu⟩
          have : jsonShape jNull ∈ typeShapes a := by
            rw [← hna]
            simp [jsonShape, jNull, typeShapes]
          exact disjShapes_spec (hall u hu) this hsu
        · exact ih htail hnr h

/-- With duplicate-free member values, decoding by value recovers the
member found by name. -/
theorem find_by_value {members : List (String × JsonPrim)}
    (hnd : (members.map Prod.snd).Nodup) {p : String × JsonPrim}
    (hp : p ∈ members) :
    members.find? (fun q => q.2 = p.2) = some p := by
  induction members with
  | nil => cases hp
  | cons q rest ih =>
    by_cases hq : q.2 = p.2
    · have hqp : q = p := by
        rcases List.mem_cons.1 hp with hpq | hpr
        · exact hpq.symm
        · exfalso
          rcases List.nodup_cons.1 hnd with ⟨hnot, _⟩
          apply hnot
          rw [hq]
          exact List.mem_map_of_mem Prod.snd hpr
      rw [hqp]
      simp [List.find?_cons_of_pos, hq, hqp]
    · have hpr : p ∈ rest := by
        rcases List.mem_cons.1 hp with hpq | hpr
        · exact absurd (by rw [hpq]) hq
        · exact hpr
      rw [List.find?_cons_of_neg _ (by simpa using hq)]
      exact ih (List.nodup_cons.1 hnd).2 hpr

theorem envFind_mem {env : Env} {n : String} {dc : Dataclass}
    (h : envFind env n = some dc) : dc ∈ env := by
  induction env with
  | nil => simp [envFind] at h
  | cons d rest ih =>
    simp only [envFind] at h
    by_cases hd : d.name = n
    · rw [if_pos hd] at h
      cases h
      exact List.mem_cons_self _ _
    · rw [if_neg hd] at h
      exact List.mem_cons_of_mem d (ih h)

/-- Unpacking `wfEnv` at one dataclass. -/
theorem wfEnv_spec {env : Env} (h : wfEnv env = true) {dc : Dataclass}
    (hdc : dc ∈ env) :
    (dc.fields.map (fun f => f.hints.dict_key)).Nodup ∧
    ∀ f ∈ dc.fields, f.hints.ignore = false ∧ f.hints.only = [] ∧
      f.hints.exclude = [] ∧ wfType f.ftype = true := by
  simp only [wfEnv, List.all_eq_true, Bool.and_eq_true] at h
  rcases h dc hdc with ⟨hnd, hfields⟩
  refine ⟨(nodupBeq_iff _).1 hnd, ?_⟩
  intro f hf
  rcases hfields f hf with ⟨⟨⟨hig, ho⟩, he⟩, hwf⟩
  refine ⟨by simpa using hig, by simpa using ho, by simpa using he, hwf⟩

/-! ## Round-trip helpers -/

theorem wfTypeL_mem {l : List PType} (h : wfTypeL l = true) {t : PType}
    (ht : t ∈ l) : wfType t = true := by
  induction l with
  | nil => cases ht
  | cons a rest ih =>
    simp only [wfTypeL, Bool.and_eq_true] at h
    rcases List.mem_cons.1 ht with rfl | hr
    · exact h.1
    · exact ih h.2 hr

theorem omitSafeL_mem {env : Env} {l : List PyValue}
    (h : omitSafeL env l = true) {v : PyValue} (hv : v ∈ l) :
    omitSafe env v = true := by
  induction l with
  | nil => cases hv
  | cons x xs ih =>
    simp only [omitSafeL, Bool.and_eq_true] at h
    rcases List.mem_cons.1 hv with rfl | hr
    · exact h.1
    · exact ih h.2 hr

theorem omitSafeF_mem {env : Env} {l : List (String × PyValue)}
    (h : omitSafeF env l = true) {p : String × PyValue} (hp : p ∈ l) :
    omitSafe env p.2 = true := by
  induction l with
  | nil => cases hp
  | cons x xs ih =>
    simp only [omitSafeF, Bool.and_eq_true] at h
    rcases List.mem_cons.1 hp with rfl | hr
    · exact h.1
    · exact ih h.2 hr

theorem isOptionalT_noneType_mem {args : List PType}
    (h : isOptionalT (.pUnion args) = true) : PType.pNoneType ∈ args := by
  simp only [isOptionalT, List.any_eq_true] at h
  rcases h with ⟨a, ha, hn⟩
  cases a <;> simp at hn
  exact ha

/-- Dump-then-load over a list of elements. -/
theorem mapM_roundtrip_list {d : PyValue → Except LErr Json}
    {ld : Json → Except LErr PyValue} :
    ∀ {items : List PyValue} {out : List Json},
      (∀ x ∈ items, ∀ y, d x = .ok y → ld y = .ok x) →
      items.mapM d = .ok out → out.mapM ld = .ok items := by
  intro items
  induction items with
  | nil =>
    intro out _ h
    simp only [List.mapM_nil] at h
    cases h
    rfl
  | cons x xs ih =>
    intro out hdl h
    simp only [List.mapM_cons] at h
    rcases bind_eq_ok.1 h with ⟨y, hy, h2⟩
    rcases bind_eq_ok.1 h2 with ⟨ys, hys, h3⟩
    cases h3
    simp only [List.mapM_cons]
    rw [hdl x (List.mem_cons_self x xs) y hy]
    rw [ih (fun z hz => hdl z (List.mem_cons_of_mem x hz)) hys]
    rfl

/-- Dump-then-load over dict entries. -/
theorem mapM_roundtrip_pairs {d : PyValue → Except LErr Json}
    {ld : Json → Except LErr PyValue} :
    ∀ {entries : List (String × PyValue)} {out : List (String × Json)},
      (∀ p ∈ entries, ∀ y, d p.2 = .ok y → ld y = .ok p.2) →
      entries.mapM (fun p => (d p.2).map (fun jw => (p.1, jw))) =
        .ok out →
      out.mapM (fun q => (ld q.2).map (fun w => (q.1, w))) =
        .ok entries := by
  intro entries
  induction entries with
  | nil =>
    intro out _ h
    simp only [List.mapM_nil] at h
    cases h
    rfl
  | cons p ps ih =>
    intro out hdl h
    simp only [List.mapM_cons] at h
    rcases bind_eq_ok.1 h with ⟨q, hq, h2⟩
    rcases bind_eq_ok.1 h2 with ⟨qs, hqs, h3⟩
    cases h3
    rcases exceptMap_eq_ok hq with ⟨y, hy, hq2⟩
    simp only [List.mapM_cons]
    subst hq2
    rw [show (ld (p.1, y).2) = ld y from rfl,
      hdl p (List.mem_cons_self p ps) y hy]
    rw [ih (fun z hz => hdl z (List.mem_cons_of_mem p hz)) hqs]
    rfl

theorem mapM_ok_length {eps A B : Type} {f : A → Except eps B} :
    ∀ {l : List A} {out : List B}, l.mapM f = .ok out →
      out.length = l.length := by
  intro l
  induction l with
  | nil =>
    intro out h
    simp only [List.mapM_nil] at h
    cases h
    rfl
  | cons x xs ih =>
    intro out h
    simp only [List.mapM_cons] at h
    rcases bind_eq_ok.1 h with ⟨y, _, h2⟩
    rcases bind_eq_ok.1 h2 with ⟨ys, hys, h3⟩
    cases h3
    simp [ih hys]

/-- Dump-then-load over a fixed tuple (type-value zips). -/
theorem mapM_roundtrip_zip {d : PType → PyValue → Except LErr Json}
    {ld : PType → Json → Except LErr PyValue} :
    ∀ {args : List PType} {items : List PyValue} {out : List Json},
      args.length = items.length →
      (∀ pr ∈ args.zip items, ∀ y, d pr.1 pr.2 = .ok y →
        ld pr.1 y = .ok pr.2) →
      (args.zip items).mapM (fun p => d p.1 p.2) = .ok out →
      out.length = items.length ∧
      (args.zip out).mapM (fun p => ld p.1 p.2) = .ok items := by
  intro args
  induction args with
  | nil =>
    intro items out hlen _ h
    cases items with
    | nil =>
      simp only [List.zip_nil_left, List.mapM_nil] at h
      cases h
      exact ⟨rfl, rfl⟩
    | cons x xs => simp at hlen
  | cons a as ih =>
    intro items out hlen hdl h
    cases items with
    | nil => simp at hlen
    | cons x xs =>
      simp only [List.zip_cons_cons, List.mapM_cons] at h
      rcases bind_eq_ok.1 h with ⟨y, hy, h2⟩
      rcases bind_eq_ok.1 h2 with ⟨ys, hys, h3⟩
      cases h3
      have hlen' : as.length = xs.length := by simpa using hlen
      rcases ih hlen'
        (fun pr hpr => hdl pr (List.mem_cons_of_mem (a, x) hpr)) hys
        with ⟨hl, hrec⟩
      constructor
      · simp [hl]
      · simp only [List.zip_cons_cons, List.mapM_cons]
        rw [hdl (a, x) (List.mem_cons_self _ _) y hy]
        rw [hrec]
        rfl

/-- Keys written by the record dump come from the plan's `dict_key`s. -/
theorem dumpRecordFields_keys (fuel : Nat) :
    ∀ {env : Env} {oN : Bool} {o e : List String}
      {l : List (DField × PyValue)} {entr : List (String × Json)},
      dumpRecordFields fuel env oN o e l = .ok entr →
      ∀ q ∈ entr, ∃ pr ∈ l, pr.1.hints.dict_key = q.1 := by
  induction fuel with
  | zero =>
    intro env oN o e l entr h
    simp [dumpRecordFields] at h
  | succ m ih =>
    intro env oN o e l entr h q hq
    cases l with
    | nil =>
      simp only [dumpRecordFields] at h
      cases h
      cases hq
    | cons pr rest =>
      obtain ⟨f, val⟩ := pr
      simp only [dumpRecordFields] at h
      by_cases hkeep : planKeeps o e f = true
      · rw [if_pos hkeep] at h
        cases hd : dumpValue m env oN f.hints.only f.hints.exclude
            f.ftype val with
        | ok jf =>
          rw [hd] at h
          dsimp only at h
          rcases exceptMap_eq_ok h with ⟨tail, htail, hentr⟩
          subst hentr
          by_cases hc : (jf = jNull && oN && isOptionalT f.ftype) = true
          · rw [if_pos hc] at hq
            rcases ih htail q hq with ⟨pr2, hpr2, hk⟩
            exact ⟨pr2, List.mem_cons_of_mem _ hpr2, hk⟩
          · rw [if_neg hc] at hq
            rcases List.mem_cons.1 hq with rfl | hq2
            · exact ⟨(f, val), List.mem_cons_self _ _, rfl⟩
            · rcases ih htail q hq2 with ⟨pr2, hpr2, hk⟩
              exact ⟨pr2, List.mem_cons_of_mem _ hpr2, hk⟩
        | error err =>
          rw [hd] at h
          simp at h
      · rw [if_neg hkeep] at h
        rcases ih h q hq with ⟨pr2, hpr2, hk⟩
        exact ⟨pr2, List.mem_cons_of_mem _ hpr2, hk⟩

/-- A leading entry whose key no field uses is invisible to the record
load. -/
theorem loadRecordFields_strip (fuel : Nat) :
    ∀ {env : Env} {k : String} {jv : Json} {es : List (String × Json)}
      {fields : List DField},
      (∀ f ∈ fields, f.hints.dict_key ≠ k) →
      loadRecordFields fuel env ((k, jv) :: es) fields =
        loadRecordFields fuel env es fields := by
  induction fuel with
  | zero => intro env k jv es fields _; rfl
  | succ m ih =>
    intro env k jv es fields hk
    cases fields with
    | nil => rfl
    | cons f fs =>
      simp only [loadRecordFields]
      have hne : ¬ k = f.hints.dict_key := by
        intro he
        exact hk f (List.mem_cons_self f fs) he.symm
      simp only [dictGet, if_neg hne]
      rw [ih (fun g hg => hk g (List.mem_cons_of_mem f hg))]

/-- One-step unfolding of the record load at a `cons` of fields. -/
theorem loadRecordFields_cons (m : Nat) (env : Env)
    (entries : List (String × Json)) (f : DField) (rest : List DField) :
    loadRecordFields (m + 1) env entries (f :: rest) =
      match (match dictGet entries f.hints.dict_key with
        | some jv =>
          loadValue m env f.hints.only f.hints.exclude f.ftype jv
        | none =>
          match f.defaultV with
          | some d => .ok d
          | none =>
            match f.factoryV with
            | some fv => .ok fv
            | none =>
              if isOptionalT f.ftype then .ok PyValue.vNone
              else .error (.validationError
                [(f.hints.dict_key, "is a required property")])) with
      | .ok v =>
        (loadRecordFields m env entries rest).map (fun tail => v :: tail)
      | .error e => .error e := rfl

/-- The round-trip induction bundle: any successful dump loads back to
the original value, for well-formed types and environments, provided
(when `omit_none` is on) every omitted key reloads to `None` through its
default chain. -/
theorem roundtrip (fuel : Nat) :
    (∀ (env : Env) (oN : Bool) (t : PType) (v : PyValue) (j : Json),
      wfEnv env = true → wfType t = true →
      (oN = true → omitSafe env v = true) →
      dumpValue fuel env oN [] [] t v = .ok j →
      loadValue fuel env [] [] t j = .ok v) ∧
    (∀ (env : Env) (oN : Bool) (args : List PType) (v : PyValue)
       (j : Json),
      wfEnv env = true → pairwiseDisj args = true → wfTypeL args = true →
      (oN = true → omitSafe env v = true) →
      dumpFirst fuel env oN [] [] args v = .ok j →
      loadFirst fuel env [] [] args j = .ok v) ∧
    (∀ (env : Env) (oN : Bool) (fields : List DField)
       (fvals : List PyValue) (entr : List (String × Json)),
      wfEnv env = true → fields.length = fvals.length →
      (fields.map (fun f => f.hints.dict_key)).Nodup →
      (∀ f ∈ fields, f.hints.ignore = false ∧ f.hints.only = [] ∧
        f.hints.exclude = [] ∧ wfType f.ftype = true) →
      (oN = true → omitSafeFields env fields fvals = true) →
      dumpRecordFields fuel env oN [] [] (fields.zip fvals) = .ok entr →
      loadRecordFields fuel env entr fields = .ok fvals) := by
  induction fuel with
  | zero =>
    refine ⟨?_, ?_, ?_⟩
    · intro env oN t v j _ _ _ h
      simp [dumpValue] at h
    · intro env oN args v j _ _ _ _ h
      simp [dumpFirst] at h
    · intro env oN fields fvals entr _ _ _ _ _ h
      simp [dumpRecordFields] at h
  | succ m ih =>
    obtain ⟨ihV, ihF, ihR⟩ := ih
    refine ⟨?_, ?_, ?_⟩
    · intro env oN t v j hwfE hwfT hsafe h
      cases t with
      | pStr =>
        cases v
        case vStr s =>
          simp only [dumpValue] at h
          cases h
          rfl
        all_goals simp [dumpValue] at h
      | pInt =>
        cases v
        case vInt i =>
          simp only [dumpValue] at h
          cases h
          rfl
        all_goals simp [dumpValue] at h
      | pFloat =>
        cases v
        case vFloat x =>
          simp only [dumpValue] at h
          cases h
          rfl
        all_goals simp [dumpValue] at h
      | pBool =>
        cases v
        case vBool bv =>
          simp only [dumpValue] at h
          cases h
          rfl
        all_goals simp [dumpValue] at h
      | pNoneType =>
        cases v
        case vNone =>
          simp only [dumpValue] at h
          cases h
          rfl
        all_goals simp [dumpValue] at h
      | pAny =>
        cases v
        case vNone =>
          simp only [dumpValue] at h
          cases h
          rfl
        case vBool bv =>
          simp only [dumpValue] at h
          cases h
          rfl
        case vInt i =>
          simp only [dumpValue] at h
          cases h
          rfl
        case vFloat x =>
          simp only [dumpValue] at h
          cases h
          rfl
        case vStr s =>
          simp only [dumpValue] at h
          cases h
          rfl
        case vList items =>
          simp only [dumpValue] at h
          rcases exceptMap_eq_ok h with ⟨a, ha, hj⟩
          subst hj
          have hdl : ∀ x ∈ items, ∀ y,
              dumpValue m env oN [] [] PType.pAny x = .ok y →
              loadValue m env [] [] PType.pAny y = .ok x := by
            intro x hx y hy
            exact ihV env oN .pAny x y hwfE rfl
              (fun hoN => omitSafeL_mem
                (show omitSafeL env items = true from hsafe hoN) hx) hy
          simp only [loadValue]
          rw [@mapM_roundtrip_list (dumpValue m env oN [] [] .pAny)
            (loadValue m env [] [] .pAny) items a hdl ha]
          rfl
        case vDict entries =>
          simp only [dumpValue] at h
          rcases exceptMap_eq_ok h with ⟨a, ha, hj⟩
          subst hj
          have hdl : ∀ p ∈ entries, ∀ y,
              dumpValue m env oN [] [] PType.pAny p.2 = .ok y →
              loadValue m env [] [] PType.pAny y = .ok p.2 := by
            intro p hp y hy
            exact ihV env oN .pAny p.2 y hwfE rfl
              (fun hoN => omitSafeF_mem
                (show omitSafeF env entries = true from hsafe hoN) hp) hy
          simp only [loadValue]
          rw [@mapM_roundtrip_pairs (dumpValue m env oN [] [] .pAny)
            (loadValue m env [] [] .pAny) entries a hdl ha]
          rfl
        all_goals simp [dumpValue] at h
      | pUnion args =>
        simp only [dumpValue] at h
        rcases (show pairwiseDisj args = true ∧ wfTypeL args = true by
          simpa using
            (show (pairwiseDisj args && wfTypeL args) = true from hwfT))
          with ⟨hdisj, hwl⟩
        simp only [loadValue]
        exact ihF env oN args v j hwfE hdisj hwl hsafe h
      | pEnum n doc members =>
        cases v
        case vEnum n2 mn =>
          simp only [dumpValue] at h
          by_cases hn : n2 = n
          · rw [if_pos hn] at h
            cases hfind : members.find? (fun p => p.1 = mn) with
            | some p =>
              rw [hfind] at h
              cases h
              have hndv : nodupBeq (members.map Prod.snd) = true := by
                have hx : ((nodupBeq (members.map Prod.fst) &&
                    nodupBeq (members.map Prod.snd)) &&
                    members.all (fun q => !(q.2 == JsonPrim.null))) =
                    true := hwfT
                simp only [Bool.and_eq_true] at hx
                exact hx.1.2
              have hmem : p ∈ members := List.mem_of_find?_eq_some hfind
              have hname : p.1 = mn := by
                have := List.find?_some hfind
                simpa using this
              simp only [loadValue]
              rw [find_by_value ((nodupBeq_iff _).1 hndv) hmem]
              dsimp only
              rw [hn, hname]
            | none =>
              rw [hfind] at h
              simp at h
          · rw [if_neg hn] at h
            simp at h
        all_goals simp [dumpValue] at h
      | pMapping kt vt =>
        cases v
        case vDict entries =>
          simp only [dumpValue] at h
          rcases exceptMap_eq_ok h with ⟨a, ha, hj⟩
          subst hj
          have hwv : wfType vt = true := by
            have hx : (wfType kt && wfType vt) = true := hwfT
            simp only [Bool.and_eq_true] at hx
            exact hx.2
          have hdl : ∀ p ∈ entries, ∀ y,
              dumpValue m env oN [] [] vt p.2 = .ok y →
              loadValue m env [] [] vt y = .ok p.2 := by
            intro p hp y hy
            exact ihV env oN vt p.2 y hwfE hwv
              (fun hoN => omitSafeF_mem
                (show omitSafeF env entries = true from hsafe hoN) hp) hy
          simp only [loadValue]
          rw [@mapM_roundtrip_pairs (dumpValue m env oN [] [] vt)
            (loadValue m env [] [] vt) entries a hdl ha]
          rfl
        all_goals simp [dumpValue] at h
      | pTupleF args =>
        cases v
        case vTuple items =>
          simp only [dumpValue] at h
          by_cases hlen : args.length = items.length
          · rw [if_pos hlen] at h
            rcases exceptMap_eq_ok h with ⟨a, ha, hj⟩
            subst hj
            have hwl : wfTypeL args = true := hwfT
            have hdl : ∀ pr ∈ args.zip items, ∀ y,
                dumpValue m env oN [] [] pr.1 pr.2 = .ok y →
                loadValue m env [] [] pr.1 y = .ok pr.2 := by
              intro pr hpr y hy
              obtain ⟨ta, va⟩ := pr
              exact ihV env oN ta va y hwfE
                (wfTypeL_mem hwl (List.of_mem_zip hpr).1)
                (fun hoN => omitSafeL_mem
                  (show omitSafeL env items = true from hsafe hoN)
                  (List.of_mem_zip hpr).2) hy
            rcases @mapM_roundtrip_zip (dumpValue m env oN [] [])
              (loadValue m env [] []) args items a hlen hdl ha
              with ⟨hlen2, hload⟩
            simp only [loadValue]
            rw [if_pos (show args.length = a.length from by
              rw [hlen, ← hlen2])]
            rw [hload]
            rfl
          · rw [if_neg hlen] at h
            simp at h
        all_goals simp [dumpValue] at h
      | pTupleV it =>
        cases v
        case vTuple items =>
          simp only [dumpValue] at h
          rcases exceptMap_eq_ok h with ⟨a, ha, hj⟩
          subst hj
          have hdl : ∀ x ∈ items, ∀ y,
              dumpValue m env oN [] [] it x = .ok y →
              loadValue m env [] [] it y = .ok x := by
            intro x hx y hy
            exact ihV env oN it x y hwfE
              (show wfType it = true from hwfT)
              (fun hoN => omitSafeL_mem
                (show omitSafeL env items = true from hsafe hoN) hx) hy
          simp only [loadValue]
          rw [@mapM_roundtrip_list (dumpValue m env oN [] [] it)
            (loadValue m env [] [] it) items a hdl ha]
          rfl
        all_goals simp [dumpValue] at h
      | pList it =>
        cases v
        case vList items =>
          simp only [dumpValue] at h
          rcases exceptMap_eq_ok h with ⟨a, ha, hj⟩
          subst hj
          have hdl : ∀ x ∈ items, ∀ y,
              dumpValue m env oN [] [] it x = .ok y →
              loadValue m env [] [] it y = .ok x := by
            intro x hx y hy
            exact ihV env oN it x y hwfE
              (show wfType it = true from hwfT)
              (fun hoN => omitSafeL_mem
                (show omitSafeL env items = true from hsafe hoN) hx) hy
          simp only [loadValue]
          rw [@mapM_roundtrip_list (dumpValue m env oN [] [] it)
            (loadValue m env [] [] it) items a hdl ha]
          rfl
        all_goals simp [dumpValue] at h
      | pNewType nn sup =>
        simp only [dumpValue] at h
        simp only [loadValue]
        exact ihV env oN sup v j hwfE
          (show wfType sup = true from hwfT) hsafe h
      | pDataclass n =>
        cases v
        case vRecord n2 fvals =>
          simp only [dumpValue] at h
          by_cases hn : n2 = n
          · rw [if_pos hn] at h
            cases hdc : envFind env n with
            | some dc =>
              rw [hdc] at h
              dsimp only at h
              by_cases hlen : dc.fields.length = fvals.length
              · rw [if_pos hlen] at h
                rcases exceptMap_eq_ok h with ⟨a, ha, hj⟩
                subst hj
                rcases wfEnv_spec hwfE (envFind_mem hdc) with ⟨hnd, hfwf⟩
                have hsf : oN = true →
                    omitSafeFields env dc.fields fvals = true := by
                  intro hoN
                  have hs := hsafe hoN
                  rw [hn] at hs
                  simp only [omitSafe, hdc] at hs
                  exact hs
                have hload := ihR env oN dc.fields fvals a hwfE hlen hnd
                  hfwf hsf ha
                simp only [loadValue]
                rw [hdc]
                dsimp only
                rw [hload]
                rw [hn]
                rfl
              · rw [if_neg hlen] at h
                simp at h
            | none =>
              rw [hdc] at h
              simp at h
          · rw [if_neg hn] at h
            simp at h
        all_goals simp [dumpValue] at h
      | pOther nm =>
        cases v <;> simp [dumpValue] at h
    · intro env oN args v j hwfE hdisj hwl hsafe h
      cases args with
      | nil => simp [dumpFirst] at h
      | cons a rest =>
        simp only [dumpFirst] at h
        rcases pairwiseDisj_cons hdisj with ⟨hall, htail⟩
        rcases (show wfType a = true ∧ wfTypeL rest = true by
          simpa using
            (show (wfType a && wfTypeL rest) = true from hwl))
          with ⟨hwa, hwr⟩
        cases hd : dumpValue m env oN [] [] a v with
        | ok jv =>
          rw [hd] at h
          dsimp only at h
          cases h
          have hla := ihV env oN a v _ hwfE hwa hsafe hd
          simp only [loadFirst, hla]
        | error err =>
          rw [hd] at h
          dsimp only at h
          have hshape := (dump_shape m).2 env oN [] [] rest v j h
          rcases typeShapesL_mem.1 hshape with ⟨u, hu, hsu⟩
          have hnot : jsonShape j ∉ typeShapes a :=
            fun hin => disjShapes_spec (hall u hu) hin hsu
          cases hl : loadValue m env [] [] a j with
          | ok w => exact absurd hl (load_fails_of_shape hnot w)
          | error err2 =>
            simp only [loadFirst, hl]
            exact ihF env oN rest v j hwfE htail hwr hsafe h
    · intro env oN fields fvals entr hwfE hlen hnd hfp hsafe h
      cases fields with
      | nil =>
        cases fvals with
        | nil =>
          simp only [List.zip_nil_left, dumpRecordFields,
            Except.ok.injEq] at h
          subst h
          rfl
        | cons x xs => simp at hlen
      | cons f fs =>
        cases fvals with
        | nil => simp at hlen
        | cons val vs =>
          simp only [List.zip_cons_cons, dumpRecordFields] at h
          obtain ⟨hig, ho, he, hwf⟩ := hfp f (List.mem_cons_self f fs)
          have hkeep : planKeeps [] [] f = true := by
            simp [planKeeps, hig]
          rw [if_pos hkeep] at h
          rw [ho, he] at h
          cases hd : dumpValue m env oN [] [] f.ftype val with
          | error err =>
            rw [hd] at h
            simp at h
          | ok jf =>
            rw [hd] at h
            dsimp only at h
            rcases exceptMap_eq_ok h with ⟨tail, htail, hentr⟩
            have hlen' : fs.length = vs.length := by simpa using hlen
            have hnd' : (fs.map (fun g => g.hints.dict_key)).Nodup :=
              (List.nodup_cons.1 hnd).2
            have hkey_not :
                f.hints.dict_key ∉ fs.map (fun g => g.hints.dict_key) :=
              (List.nodup_cons.1 hnd).1
            have hfp' : ∀ g ∈ fs, g.hints.ignore = false ∧
                g.hints.only = [] ∧ g.hints.exclude = [] ∧
                wfType g.ftype = true :=
              fun g hg => hfp g (List.mem_cons_of_mem f hg)
            have hsafe' : oN = true →
                omitSafeFields env fs vs = true := by
              intro hoN
              have hs := hsafe hoN
              simp only [omitSafeFields, Bool.and_eq_true] at hs
              exact hs.2
            have htl := ihR env oN fs vs tail hwfE hlen' hnd' hfp'
              hsafe' htail
            by_cases hc : (jf = jNull && oN && isOptionalT f.ftype) = true
            · rw [if_pos hc] at hentr
              subst hentr
              have hc' := hc
              simp only [Bool.and_eq_true] at hc'
              obtain ⟨⟨hjf, hoN⟩, hopt⟩ := hc'
              have hjf' : jf = jNull := of_decide_eq_true hjf
              have hval : val = PyValue.vNone := by
                have hopt2 := hopt
                cases hft : f.ftype
                case pUnion uargs =>
                  rw [hft] at hd hopt2
                  rw [hjf'] at hd
                  have hwf2 : wfType (.pUnion uargs) = true := by
                    rw [← hft]
                    exact hwf
                  cases m with
                  | zero => simp [dumpValue] at hd
                  | succ k =>
                    simp only [dumpValue] at hd
                    have hdu : pairwiseDisj uargs = true := by
                      have hx : (pairwiseDisj uargs && wfTypeL uargs) =
                          true := hwf2
                      simp only [Bool.and_eq_true] at hx
                      exact hx.1
                    exact dumpFirst_null k hdu
                      (isOptionalT_noneType_mem hopt2) hd
                all_goals rw [hft] at hopt2
                all_goals simp [isOptionalT] at hopt2
              have hchain : defaultChainIsNone f = true := by
                have hs := hsafe hoN
                simp only [omitSafeFields, Bool.and_eq_true] at hs
                have h1 := hs.1.1
                simp [hval, hopt] at h1
                exact h1
              have hany : tail.any (fun q => q.1 = f.hints.dict_key) =
                  false := by
                cases hq : tail.any (fun q => q.1 = f.hints.dict_key) with
                | false => rfl
                | true =>
                  exfalso
                  rcases List.any_eq_true.1 hq with ⟨q, hqm, hq1⟩
                  rcases dumpRecordFields_keys m htail q hqm
                    with ⟨pr, hpr, hk⟩
                  apply hkey_not
                  have hkk : pr.1.hints.dict_key = f.hints.dict_key := by
                    rw [hk]
                    exact of_decide_eq_true hq1
                  rw [← hkk]
                  exact List.mem_map_of_mem (fun g => g.hints.dict_key)
                    (List.of_mem_zip hpr).1
              rw [loadRecordFields_cons]
              rw [dictGet_eq_none_of_not_any tail f.hints.dict_key hany]
              dsimp only
              cases hdv : f.defaultV with
              | some d =>
                have hd0 : d = PyValue.vNone := by
                  have hc2 := hchain
                  simp only [defaultChainIsNone, hdv,
                    decide_eq_true_eq] at hc2
                  exact hc2
                simp only [htl, hval, hd0, Except.map]
              | none =>
                cases hfv : f.factoryV with
                | some fv =>
                  have hf0 : fv = PyValue.vNone := by
                    have hc2 := hchain
                    simp only [defaultChainIsNone, hdv, hfv,
                      decide_eq_true_eq] at hc2
                    exact hc2
                  simp only [htl, hval, hf0, Except.map]
                | none =>
                  simp only [hopt, if_true, htl, hval, Except.map]
            · rw [if_neg hc] at hentr
              subst hentr
              have hsv : oN = true → omitSafe env val = true := by
                intro hoN
                have hs := hsafe hoN
                simp only [omitSafeFields, Bool.and_eq_true] at hs
                exact hs.1.2
              have hstrip : ∀ g ∈ fs,
                  g.hints.dict_key ≠ f.hints.dict_key := by
                intro g hg hgk
                apply hkey_not
                rw [← hgk]
                exact List.mem_map_of_mem (fun x => x.hints.dict_key) hg
              rw [loadRecordFields_cons]
              rw [show dictGet ((f.hints.dict_key, jf) :: tail)
                f.hints.dict_key = some jf from by simp [dictGet]]
              dsimp only
              rw [ho, he]
              rw [ihV env oN f.ftype val jf hwfE hwf hsv hd]
              dsimp only
              rw [loadRecordFields_strip m hstrip]
              rw [htl]
              rfl

/-! ## C1: round-trip -/

/-- The field `a : Optional[int] = 5` (an `Optional` field with a
non-`None` default). -/
def c1Field : DField :=
  { name := "a"
    ftype := .pUnion [.pInt, .pNoneType]
    default := some (jInt 5)
    hints := { dict_key := "a" }
    defaultV := some (.vInt 5) }

def c1DC : Dataclass := { name := "A", fields := [c1Field] }

def c1Env : Env := [c1DC]

/-- The instance `A(a=None)`. -/
def c1X : PyValue := .vRecord "A" [.vNone]

/-- C1, counterexample: with `omit_none=true` (the default), the record
type `A(a: Optional[int] = 5)` is supported (well-formed), yet
`A(a=None)` dumps to `{}` (the key is omitted) and loading `{}` applies
the default `5`, so `load(dump(A(None))) = A(5) ≠ A(None)`: the claimed
round-trip fails for a record whose `Optional` field has a non-`None`
default. -/
theorem C1_counterexample :
    wfEnv c1Env = true ∧
    dumpValue 6 c1Env true [] [] (.pDataclass "A") c1X =
      .ok (.obj []) ∧
    loadValue 6 c1Env [] [] (.pDataclass "A") (.obj []) =
      .ok (.vRecord "A" [.vInt 5]) ∧
    PyValue.vRecord "A" [.vInt 5] ≠ c1X := by
  refine ⟨by decide, by rfl, by rfl, by decide⟩

/-- C1, amended: for every well-formed environment and record type,
`load(dump(x)) = x` whenever the dump succeeds — provided that, when
`omit_none` is on, every `Optional` field holding `None` inside `x`
reloads to `None` through its default chain (`omitSafe`; the
counterexample shows the claim is false without this proviso) — and
likewise element-wise for a `many=true` sequence of records. -/
theorem C1_roundtrip {fuel : Nat} {env : Env} {oN : Bool} {n : String}
    (hwfE : wfEnv env = true) :
    (∀ x j, (oN = true → omitSafe env x = true) →
      dumpValue fuel env oN [] [] (.pDataclass n) x = .ok j →
      loadValue fuel env [] [] (.pDataclass n) j = .ok x) ∧
    (∀ (xs : List PyValue) (js : List Json),
      (oN = true → omitSafeL env xs = true) →
      xs.mapM (dumpValue fuel env oN [] [] (.pDataclass n)) = .ok js →
      js.mapM (loadValue fuel env [] [] (.pDataclass n)) = .ok xs) := by
  constructor
  · intro x j hsafe hdump
    exact (roundtrip fuel).1 env oN (.pDataclass n) x j hwfE rfl hsafe
      hdump
  · intro xs js hsafe hdump
    have hdl : ∀ x ∈ xs, ∀ y,
        dumpValue fuel env oN [] [] (.pDataclass n) x = .ok y →
        loadValue fuel env [] [] (.pDataclass n) y = .ok x := by
      intro x hx y hy
      exact (roundtrip fuel).1 env oN (.pDataclass n) x y hwfE rfl
        (fun hoN => omitSafeL_mem (hsafe hoN) hx) hy
    exact @mapM_roundtrip_list
      (dumpValue fuel env oN [] [] (.pDataclass n))
      (loadValue fuel env [] [] (.pDataclass n)) xs js hdl hdump

/-- Witness for C1's amended round-trip at `A(a=None)` with
`omit_none=false`. -/
theorem C1_roundtrip_witness :
    wfEnv c1Env = true ∧
    loadValue 6 c1Env [] [] (.pDataclass "A") (.obj [("a", jNull)]) =
      .ok c1X ∧
    List.mapM (loadValue 6 c1Env [] [] (.pDataclass "A"))
      [Json.obj [("a", jNull)]] = .ok [c1X] := by
  refine ⟨by decide, ?_, ?_⟩
  · exact (@C1_roundtrip 6 c1Env false "A" (by decide)).1 c1X
      (.obj [("a", jNull)]) (fun h => Bool.noConfusion h) (by rfl)
  · exact (@C1_roundtrip 6 c1Env false "A" (by decide)).2 [c1X]
      [Json.obj [("a", jNull)]] (fun h => Bool.noConfusion h) (by rfl)

/-! ## C2: omit_none -/

/-- C2: the per-field key decision of the record dump.  Given a kept
field whose codec dumps `jf` and a successfully dumped remainder `tail`,
the produced entries are: `tail` alone (key omitted) when the dumped
value is `null`, `omit_none` is on and the declared type is `Optional`;
and `(dict_key, jf) :: tail` (key present, holding `null` when
`jf = null`) whenever `omit_none` is off, or the type is not `Optional`,
or the value is not `null`. -/
theorem C2_omit_none {m : Nat} {env : Env} {oN : Bool} {f : DField}
    {val : PyValue} {rest : List (DField × PyValue)} {jf : Json}
    {tail entr : List (String × Json)}
    (hkeep : planKeeps [] [] f = true)
    (hd : dumpValue m env oN f.hints.only f.hints.exclude f.ftype val =
      .ok jf)
    (htail : dumpRecordFields m env oN [] [] rest = .ok tail)
    (h : dumpRecordFields (m + 1) env oN [] [] ((f, val) :: rest) =
      .ok entr) :
    (jf = jNull → oN = true → isOptionalT f.ftype = true →
      entr = tail) ∧
    (oN = false → entr = (f.hints.dict_key, jf) :: tail) ∧
    (isOptionalT f.ftype = false →
      entr = (f.hints.dict_key, jf) :: tail) ∧
    (jf ≠ jNull → entr = (f.hints.dict_key, jf) :: tail) := by
  simp only [dumpRecordFields] at h
  rw [if_pos hkeep, hd] at h
  dsimp only at h
  rw [htail] at h
  simp only [Except.map, Except.ok.injEq] at h
  refine ⟨?_, ?_, ?_, ?_⟩
  · intro hjf hoN hopt
    rw [← h, if_pos (by simp [hjf, hoN, hopt])]
  · intro hoN
    rw [← h, if_neg (by simp [hoN])]
  · intro hopt
    rw [← h, if_neg (by simp [hopt])]
  · intro hjf
    rw [← h, if_neg (by simp [hjf])]

/-- An `Optional[int]` field named and keyed `o` (for the C2 witness). -/
def c2FOpt : DField :=
  { name := "o"
    ftype := .pUnion [.pInt, .pNoneType]
    hints := { dict_key := "o" } }

/-- Witness for C2 at the optional field `o` holding `None` with
`omit_none=true`: the dumped value is `null` and the key is omitted. -/
theorem C2_omit_none_witness :
    dumpValue 4 ([] : Env) true c2FOpt.hints.only c2FOpt.hints.exclude
      c2FOpt.ftype .vNone = .ok jNull ∧
    ([] : List (String × Json)) = [] := by
  refine ⟨by rfl, ?_⟩
  exact (@C2_omit_none 4 [] true c2FOpt .vNone [] jNull [] []
    (by rfl) (by rfl) (by rfl) (by rfl)).1 rfl rfl rfl

/-! ## C7: exclude wins over only -/

/-- C7: a field named in both `only` and `exclude` is treated as
excluded: it is dropped from the builder's field plan, its `dict_key`
appears neither in the emitted schema's `properties` nor in `required`
(when no other field reuses the `dict_key`), and the (spec-modelled)
record dump skips it entirely. -/
theorem C7_exclude_wins {fuel : Nat} {env : Env} {glob : Encoders}
    {b : SchemaBuilder} {parents0 : List BuilderKey}
    {fvIn : List (String × String)} {out : CreateOut} {dc : Dataclass}
    {f : DField}
    (hout : createJsonSchema (fuel + 1) env glob b false false parents0
      fvIn = .ok out)
    (hdc : envFind env b.dataclassName = some dc)
    (hf : f ∈ dc.fields)
    (honly : b.only.contains f.name = true)
    (hexcl : b.exclude.contains f.name = true)
    (hkey : ∀ g ∈ dc.fields,
      g.hints.dict_key = f.hints.dict_key → g = f) :
    f ∉ filteredFields dc b.only b.exclude ∧
    propsGet out.schema f.hints.dict_key = none ∧
    jStr f.hints.dict_key ∉ requiredJson out.schema ∧
    ∀ (m : Nat) (oN : Bool) (val : PyValue)
      (rest : List (DField × PyValue)),
      dumpRecordFields (m + 1) env oN b.only b.exclude
        ((f, val) :: rest) =
        dumpRecordFields m env oN b.only b.exclude rest := by
  have hne : b.exclude.isEmpty = false := by
    cases hxe : b.exclude with
    | nil =>
      rw [hxe] at hexcl
      simp at hexcl
    | cons x xs => simp [List.isEmpty]
  have hmemx : f.name ∈ b.exclude := List.mem_of_elem_eq_true hexcl
  have hkeepf : planKeeps b.only b.exclude f = false := by
    simp [planKeeps, hne, hexcl, hmemx]
  have hnotmem : f ∉ filteredFields dc b.only b.exclude := by
    intro hin
    have hp := (List.mem_filter.1 hin).2
    have hp2 : planKeeps b.only b.exclude f = true := hp
    rw [hkeepf] at hp2
    exact Bool.noConfusion hp2
  refine ⟨hnotmem, ?_, ?_, ?_⟩
  · rcases createJsonSchema_parts hout hdc with ⟨acc, hacc, houtp⟩
    subst houtp
    have hk : ∀ g ∈ filteredFields dc b.only b.exclude,
        g.hints.dict_key ≠ f.hints.dict_key := by
      intro g hg he
      have hgf : g = f := hkey g (List.mem_filter.1 hg).1 he
      rw [hgf] at hg
      exact hnotmem hg
    have hother := processFields_properties_other hacc hk
    show propsGet (assembleSchema b dc false false acc)
      f.hints.dict_key = none
    unfold propsGet
    rw [assembleSchema_scalar_properties]
    exact hother.trans rfl
  · rw [createJsonSchema_scalar_required hout hdc]
    intro hmem
    rcases List.mem_map.1 hmem with ⟨g, hg, hge⟩
    have hgk : g.hints.dict_key = f.hints.dict_key := jStr_inj.1 hge
    have hgfil : g ∈ filteredFields dc b.only b.exclude :=
      (List.mem_filter.1 hg).1
    have hgf : g = f := hkey g (List.mem_filter.1 hgfil).1 hgk
    rw [hgf] at hgfil
    exact hnotmem hgfil
  · intro m oN val rest
    simp only [dumpRecordFields]
    rw [if_neg (by simp [hkeepf])]

/-- Fields for the C7 witness: `x` (listed in both `only` and
`exclude`) and `y`. -/
def c7FX : DField :=
  { name := "x"
    ftype := .pInt
    hints := { dict_key := "x" } }

def c7FY : DField :=
  { name := "y"
    ftype := .pInt
    hints := { dict_key := "y" } }

def c7DC : Dataclass := { name := "C7", fields := [c7FX, c7FY] }

def c7Env : Env := [c7DC]

/-- A builder with `only=[x, y]` and `exclude=[x]`. -/
def c7B : SchemaBuilder :=
  { dataclassName := "C7", only := ["x", "y"], exclude := ["x"] }

def c7Out : CreateOut :=
  (createJsonSchema 8 c7Env noEncoders c7B false false [] []).toOption.getD
    ⟨jNull, [], [], []⟩

/-- Witness for C7 at the concrete builder: the schema drops `x` from
`properties` and `required`, and the dump skips the field. -/
theorem C7_exclude_wins_witness :
    propsGet c7Out.schema "x" = none ∧
    jStr "x" ∉ requiredJson c7Out.schema ∧
    dumpRecordFields 3 c7Env false c7B.only c7B.exclude
      [(c7FX, .vInt 1)] = dumpRecordFields 2 c7Env false c7B.only
        c7B.exclude [] := by
  have h := @C7_exclude_wins 7 c7Env noEncoders c7B [] [] c7Out c7DC
    c7FX (by rfl) (by rfl) (List.mem_cons_self _ _) (by decide)
    (by decide)
    (by
      intro g hg hk
      rcases List.mem_cons.1 hg with rfl | hg2
      · rfl
      · rcases List.mem_cons.1 hg2 with rfl | hg3
        · exact absurd hk (by decide)
        · cases hg3)
  exact ⟨h.2.1, h.2.2.1, h.2.2.2 2 false (.vInt 1) []⟩

/-! ## C8: one ValidationError, n entries -/

/-- Modelled from the spec: one field's structural check (§4.5).  A
present value must carry a JSON shape admitted by the field's type
(draft-04 `type`); a missing key fails draft-04 `required` exactly when
the field has neither default nor factory (§3 invariant 2). -/
def fieldInvalid (f : DField) (entries : List (String × Json)) : Bool :=
  match dictGet entries f.hints.dict_key with
  | some jv => !(typeShapes f.ftype).contains (jsonShape jv)
  | none => f.default.isNone && f.factoryV.isNone

/-- Modelled from the spec: the validator's refined error collection
(§4.5, "collect one ValidationFailure per distinct error"): one
`(json-pointer path, message)` entry per failing field, in field
order. -/
def validateRecord (dc : Dataclass) (entries : List (String × Json)) :
    List (String × String) :=
  (dc.fields.filter (fun f => fieldInvalid f entries)).map
    (fun f => ("#/" ++ f.hints.dict_key,
      match dictGet entries f.hints.dict_key with
      | some _ => "does not match the field schema"
      | none => "is a required property"))

/-- Modelled from the spec: `load` with `validate=true` (§4.4 load step
2, §4.5): the validator runs first and, on any failure, raises a single
`ValidationError` carrying the whole path-to-message mapping, before any
record is constructed (`serpyco/serializer.py` is absent from the
source; `validator.py` in the tree is an older single-error snapshot not
used by the spec's `load`). -/
def loadValidated (fuel : Nat) (env : Env) (n : String) (j : Json) :
    Except LErr PyValue :=
  match j with
  | .obj entries =>
    match envFind env n with
    | some dc =>
      match validateRecord dc entries with
      | [] => loadValue fuel env [] [] (.pDataclass n) j
      | errs => .error (.validationError errs)
    | none => .error (.invalidValue "not a dataclass")
  | _ => .error (.invalidValue "data is not an object")

/-- C8: with at least one invalid field, `load(validate=true)` fails
with exactly one `ValidationError`, and its errors mapping has exactly
one entry per independently invalid field (`n` entries for `n` invalid
fields). -/
theorem C8_one_error_n_entries {fuel : Nat} {env : Env} {name : String}
    {entries : List (String × Json)} {dc : Dataclass}
    (hdc : envFind env name = some dc)
    (hbad : dc.fields.countP (fun f => fieldInvalid f entries) ≠ 0) :
    ∃ errs, loadValidated fuel env name (.obj entries) =
        .error (.validationError errs) ∧
      errs.length =
        dc.fields.countP (fun f => fieldInvalid f entries) := by
  cases hv : validateRecord dc entries with
  | nil =>
    exfalso
    apply hbad
    have hlen : (validateRecord dc entries).length = 0 := by
      rw [hv]
      rfl
    unfold validateRecord at hlen
    rw [List.length_map, ← List.countP_eq_length_filter] at hlen
    exact hlen
  | cons e es =>
    refine ⟨e :: es, ?_, ?_⟩
    · unfold loadValidated
      rw [hdc]
      dsimp only
      rw [hv]
    · rw [← hv]
      unfold validateRecord
      rw [List.length_map, ← List.countP_eq_length_filter]

def c8FBar : DField :=
  { name := "bar"
    ftype := .pStr
    hints := { dict_key := "bar" } }

def c8FFoo : DField :=
  { name := "foo"
    ftype := .pInt
    hints := { dict_key := "foo" } }

def c8DC : Dataclass := { name := "Foo", fields := [c8FBar, c8FFoo] }

def c8Env : Env := [c8DC]

/-- The payload of `test_unit__validation__ok__several_errors`:
`{"bar": 12, "foo": "hello"}` — both fields independently invalid. -/
def c8Entries : List (String × Json) :=
  [("bar", jInt 12), ("foo", jStr "hello")]

/-- Witness for C8 at the two-bad-fields payload: the single raised
`ValidationError` carries exactly 2 entries. -/
theorem C8_one_error_n_entries_witness :
    (∃ errs, loadValidated 4 c8Env "Foo" (.obj c8Entries) =
        .error (.validationError errs) ∧
      errs.length =
        c8DC.fields.countP (fun f => fieldInvalid f c8Entries)) ∧
    c8DC.fields.countP (fun f => fieldInvalid f c8Entries) = 2 := by
  refine ⟨?_, by decide⟩
  exact @C8_one_error_n_entries 4 c8Env "Foo" c8Entries c8DC (by rfl)
    (by decide)

/-! ## C6: cycles, definitions and `$ref` -/

/-- `getFieldSchemaCore` on a nested dataclass with no encoder
registered for it: the `$ref` branch (`"#"` for the root builder of the
`parent_builders` list, a `#/definitions/` reference otherwise), with no
recursive descent. -/
theorem getFieldSchemaCore_dataclass
    (rec' : PType → Except SErr (Json × Bool)) (env : Env)
    (glob : Encoders) (types : Encoders) (rootKey : BuilderKey)
    (rest : List BuilderKey) (hints : FieldHints) (n : String)
    (dc : Dataclass)
    (hdc : envFind env n = some dc)
    (henc : (types (.pDataclass n)).bind (fun e => e.schemaFn) = none)
    (hglob : glob (.pDataclass n) = none) :
    getFieldSchemaCore rec' env glob types (rootKey :: rest) hints
      (.pDataclass n) =
      .ok (decorateFieldSchema hints (.obj [("$ref", jStr
        (if n = rootKey.name then "#"
         else "#/definitions/" ++ default_get_definition_name n []
           hints.only hints.exclude))]), true) := by
  unfold getFieldSchemaCore
  rw [henc, hglob]
  dsimp only
  rw [hdc]
  rfl

/-- The `definitions` object of an emitted root schema. -/
def defsOf (j : Json) : List (String × Json) :=
  match jsonGet j "definitions" with
  | some (.obj l) => l
  | _ => []

/-- C6: the cycle machinery of `_create_json_schema`. A nested dataclass
field is emitted as `{"$ref": "#"}` when its name matches the root
builder (head of `parent_builders`) and as a `#/definitions/` reference
otherwise; and the definitions loop never descends into a sub-record
whose definition name is already present (at most one definitions entry
per name) or whose builder key matches an ancestor in `parent_builders`
(the accumulator is returned untouched: no recursion, no definitions
entry, no nested builder). -/
theorem C6_cycle_refs {env : Env} {glob types : Encoders} {n : String}
    {dc : Dataclass} {hints : FieldHints} {fuel : Nat}
    {rootKey : BuilderKey} {rest : List BuilderKey}
    (hdc : envFind env n = some dc)
    (henc : (types (.pDataclass n)).bind (fun e => e.schemaFn) = none)
    (hglob : glob (.pDataclass n) = none) :
    (n = rootKey.name →
      getFieldSchema (fuel + 1) env glob types (rootKey :: rest) hints
        (.pDataclass n) =
        .ok (decorateFieldSchema hints
          (.obj [("$ref", jStr "#")]), true)) ∧
    (n ≠ rootKey.name →
      getFieldSchema (fuel + 1) env glob types (rootKey :: rest) hints
        (.pDataclass n) =
        .ok (decorateFieldSchema hints (.obj [("$ref",
          jStr ("#/definitions/" ++ default_get_definition_name n []
            hints.only hints.exclude))]), true)) ∧
    (∀ (rc : RecCall) (b : SchemaBuilder) (noFV : Bool)
       (vfield : DField) (isIter : Bool) (acc : BuildAcc),
      dictHas acc.definitions (default_get_definition_name n []
        vfield.hints.only vfield.hints.exclude) = true →
      processItem rc env b noFV vfield isIter acc (.pDataclass n) =
        .ok acc) ∧
    (∀ (rc : RecCall) (b : SchemaBuilder) (noFV : Bool)
       (vfield : DField) (isIter : Bool) (acc : BuildAcc),
      acc.parents.contains
        (⟨n, [], vfield.hints.only, vfield.hints.exclude⟩ :
          BuilderKey) = true →
      processItem rc env b noFV vfield isIter acc (.pDataclass n) =
        .ok acc) := by
  refine ⟨?_, ?_, ?_, ?_⟩
  · intro hroot
    rw [getFieldSchema_succ,
      getFieldSchemaCore_dataclass _ _ _ _ _ _ _ _ _ hdc henc hglob]
    rw [if_pos hroot]
  · intro hroot
    rw [getFieldSchema_succ,
      getFieldSchemaCore_dataclass _ _ _ _ _ _ _ _ _ hdc henc hglob]
    rw [if_neg hroot]
  · intro rc b noFV vfield isIter acc hhas
    unfold processItem
    dsimp only
    rw [hdc]
    dsimp only
    rw [if_pos hhas]
  · intro rc b noFV vfield isIter acc hpar
    unfold processItem
    dsimp only
    rw [hdc]
    dsimp only
    by_cases hhas : dictHas acc.definitions
      (default_get_definition_name n [] vfield.hints.only
        vfield.hints.exclude) = true
    · rw [if_pos hhas]
    · rw [if_neg hhas, if_pos hpar]

/-- `First.second : Second` (one half of the circular pair of
`test_unit__json_schema__ok__circular_reference`). -/
def c6FSecond : DField :=
  { name := "second"
    ftype := .pDataclass "Second"
    hints := { dict_key := "second" } }

/-- `Second.first : First` (the cycle edge back to the root). -/
def c6FFirst : DField :=
  { name := "first"
    ftype := .pDataclass "First"
    hints := { dict_key := "first" } }

def c6First : Dataclass := { name := "First", fields := [c6FSecond] }

def c6Second : Dataclass := { name := "Second", fields := [c6FFirst] }

def c6Env : Env := [c6First, c6Second]

def c6B : SchemaBuilder := { dataclassName := "First" }

def c6Out : CreateOut :=
  (createJsonSchema 12 c6Env noEncoders c6B false false [] []).toOption.getD
    ⟨jNull, [], [], []⟩

/-- The `definitions` entry the cycle build produces for `Second`. -/
def c6SecondSchema : Json :=
  (dictGet (defsOf c6Out.schema) "Second").getD jNull

/-- C6, counterexample: on the two-record cycle `First ⇄ Second` rooted
at `First`, the build terminates (with fuel to spare), but `definitions`
holds exactly one entry — for `Second` — and `First`, a record on the
cycle, contributes none (it is referenced as `{"$ref": "#"}` from inside
`Second`): "each record on the cycle contributes exactly one entry to
definitions" fails at the root. -/
theorem C6_counterexample :
    createJsonSchema 12 c6Env noEncoders c6B false false [] [] =
      .ok c6Out ∧
    dictKeys (defsOf c6Out.schema) = ["Second"] ∧
    "First" ∉ dictKeys (defsOf c6Out.schema) ∧
    propsGet c6Out.schema "second" =
      some (.obj [("$ref", jStr "#/definitions/Second")]) ∧
    propsGet c6SecondSchema "first" =
      some (.obj [("$ref", jStr "#")]) := by
  refine ⟨by rfl, by rfl, by decide, by rfl, by rfl⟩

def c6BKey : BuilderKey := ⟨"First", [], [], []⟩

/-- An accumulator whose `parent_builders` already holds the root. -/
def c6Acc : BuildAcc := ⟨[], [], [], [c6BKey], [], []⟩

/-- Witness for C6 on the cycle: the self-reference fragment and the
no-descent skip, at the `First ⇄ Second` environment. -/
theorem C6_cycle_refs_witness :
    getFieldSchema 3 c6Env noEncoders noEncoders [c6BKey]
      c6FFirst.hints (.pDataclass "First") =
      .ok (decorateFieldSchema c6FFirst.hints
        (.obj [("$ref", jStr "#")]), true) ∧
    processItem (rcOf 3 c6Env noEncoders) c6Env c6B false c6FFirst
      false c6Acc (.pDataclass "First") = .ok c6Acc := by
  have h := @C6_cycle_refs c6Env noEncoders noEncoders "First" c6First
    c6FFirst.hints 2 c6BKey [] (by rfl) (by rfl) (by rfl)
  exact ⟨h.1 rfl,
    h.2.2.2 (rcOf 3 c6Env noEncoders) c6B false c6FFirst false c6Acc
      (by decide)⟩

/-! ## C10: json_schema returns a fresh deep copy

A heap model of `copy.deepcopy`: JSON nodes laid out as cells whose
children are addresses, mutation as cell replacement.  `json_schema`'s
returned dict is `copy.deepcopy(cache)`: a tree of entirely fresh cells
denoting the cached value, so mutating it cannot reach the cache. -/

/-- A heap cell: a JSON node whose children are references. -/
inductive HCell where
  | prim : JsonPrim → HCell
  | arr : List Nat → HCell
  | obj : List (String × Nat) → HCell
deriving DecidableEq, Repr

/-- A heap: the address of a cell is its index; allocation appends. -/
abbrev Heap := List HCell

mutual

/-- Lay a JSON tree out on the heap, children first (as `copy.deepcopy`
does: every node gets a fresh cell).  Returns the grown heap and the
root's address. -/
def writeJson : Heap → Json → Heap × Nat
  | h, .prim p => (h ++ [.prim p], h.length)
  | h, .arr items =>
    match writeJsonL h items with
    | (h1, addrs) => (h1 ++ [.arr addrs], h1.length)
  | h, .obj fields =>
    match writeJsonF h fields with
    | (h1, fas) => (h1 ++ [.obj fas], h1.length)

/-- `writeJson` over an array's elements. -/
def writeJsonL : Heap → List Json → Heap × List Nat
  | h, [] => (h, [])
  | h, j :: js =>
    match writeJson h j with
    | (h1, a) =>
      match writeJsonL h1 js with
      | (h2, as) => (h2, a :: as)

/-- `writeJson` over an object's entries. -/
def writeJsonF : Heap → List (String × Json) →
    Heap × List (String × Nat)
  | h, [] => (h, [])
  | h, p :: ps =>
    match writeJson h p.2 with
    | (h1, a) =>
      match writeJsonF h1 ps with
      | (h2, as) => (h2, (p.1, a) :: as)

end

/-- Read a JSON tree back off the heap (fuel-bounded: after arbitrary
mutation the heap may be cyclic). -/
def denote (h : Heap) : Nat → Nat → Option Json
  | 0, _ => none
  | fuelD + 1, a =>
    match h.get? a with
    | some (.prim p) => some (.prim p)
    | some (.arr as) => (as.mapM (denote h fuelD)).map .arr
    | some (.obj fs) =>
      (fs.mapM (fun p =>
        (denote h fuelD p.2).map (fun q => (p.1, q)))).map .obj
    | none => none

/-- In-place mutation of one cell (what caller code can do to the dict
returned by `json_schema`). -/
def setCell (h : Heap) (a : Nat) (c : HCell) : Heap := h.set a c

/-- Two heaps agree on all addresses below `n`. -/
def agreeBelow (h h' : Heap) (n : Nat) : Prop :=
  ∀ a, a < n → h.get? a = h'.get? a

/-- The child references of a cell. -/
def cellRefs : HCell → List Nat
  | .prim _ => []
  | .arr as => as
  | .obj fs => fs.map Prod.snd

/-- Every reference out of a cell below `n` stays below `n` (the
builder's cached schema is such a closed region). -/
def closedBelow (h : Heap) (n : Nat) : Prop :=
  ∀ a c, a < n → h.get? a = some c → ∀ r ∈ cellRefs c, r < n

mutual

/-- The depth of a JSON tree (the fuel `denote` needs). -/
def jdepth : Json → Nat
  | .prim _ => 1
  | .arr items => jdepthL items + 1
  | .obj fields => jdepthF fields + 1

def jdepthL : List Json → Nat
  | [] => 0
  | j :: js => max (jdepth j) (jdepthL js)

def jdepthF : List (String × Json) → Nat
  | [] => 0
  | p :: ps => max (jdepth p.2) (jdepthF ps)

end

theorem get?_append_left {α : Type} :
    ∀ (l l' : List α) (n : Nat) (x : α),
      l.get? n = some x → (l ++ l').get? n = some x := by
  intro l
  induction l with
  | nil =>
    intro l' n x h
    simp at h
  | cons a as ih =>
    intro l' n x h
    cases n with
    | zero => simpa using h
    | succ m => simpa using ih l' m x (by simpa using h)

mutual

theorem writeJson_grows : ∀ (j : Json) (h : Heap),
    (∃ l, (writeJson h j).1 = h ++ l) ∧
    h.length ≤ (writeJson h j).2
  | .prim p, h => ⟨⟨[.prim p], rfl⟩, Nat.le_refl _⟩
  | .arr items, h => by
    rcases writeJsonL_grows items h with ⟨⟨l, hl⟩, _⟩
    cases hw : writeJsonL h items with
    | mk h1 addrs =>
      rw [hw] at hl
      dsimp only at hl
      constructor
      · refine ⟨l ++ [.arr addrs], ?_⟩
        simp only [writeJson, hw]
        rw [hl, List.append_assoc]
      · simp only [writeJson, hw]
        rw [hl]
        simp
  | .obj fields, h => by
    rcases writeJsonF_grows fields h with ⟨⟨l, hl⟩, _⟩
    cases hw : writeJsonF h fields with
    | mk h1 fas =>
      rw [hw] at hl
      dsimp only at hl
      constructor
      · refine ⟨l ++ [.obj fas], ?_⟩
        simp only [writeJson, hw]
        rw [hl, List.append_assoc]
      · simp only [writeJson, hw]
        rw [hl]
        simp

theorem writeJsonL_grows : ∀ (js : List Json) (h : Heap),
    (∃ l, (writeJsonL h js).1 = h ++ l) ∧
    h.length ≤ (writeJsonL h js).1.length
  | [], h => ⟨⟨[], by simp [writeJsonL]⟩, Nat.le_refl _⟩
  | j :: js, h => by
    rcases writeJson_grows j h with ⟨⟨l1, hl1⟩, _⟩
    cases hw1 : writeJson h j with
    | mk h1 a =>
      rw [hw1] at hl1
      dsimp only at hl1
      rcases writeJsonL_grows js h1 with ⟨⟨l2, hl2⟩, _⟩
      cases hw2 : writeJsonL h1 js with
      | mk h2 as =>
        rw [hw2] at hl2
        dsimp only at hl2
        constructor
        · refine ⟨l1 ++ l2, ?_⟩
          simp only [writeJsonL, hw1, hw2]
          rw [hl2, hl1, List.append_assoc]
        · simp only [writeJsonL, hw1, hw2]
          rw [hl2, hl1]
          simp

theorem writeJsonF_grows : ∀ (ps : List (String × Json)) (h : Heap),
    (∃ l, (writeJsonF h ps).1 = h ++ l) ∧
    h.length ≤ (writeJsonF h ps).1.length
  | [], h => ⟨⟨[], by simp [writeJsonF]⟩, Nat.le_refl _⟩
  | p :: ps, h => by
    rcases writeJson_grows p.2 h with ⟨⟨l1, hl1⟩, _⟩
    cases hw1 : writeJson h p.2 with
    | mk h1 a =>
      rw [hw1] at hl1
      dsimp only at hl1
      rcases writeJsonF_grows ps h1 with ⟨⟨l2, hl2⟩, _⟩
      cases hw2 : writeJsonF h1 ps with
      | mk h2 as =>
        rw [hw2] at hl2
        dsimp only at hl2
        constructor
        · refine ⟨l1 ++ l2, ?_⟩
          simp only [writeJsonF, hw1, hw2]
          rw [hl2, hl1, List.append_assoc]
        · simp only [writeJsonF, hw1, hw2]
          rw [hl2, hl1]
          simp

end

/-- Reads that succeed survive heap growth. -/
theorem denote_mono (fuelD : Nat) :
    ∀ (h l : Heap) (a : Nat) (j : Json),
      denote h fuelD a = some j → denote (h ++ l) fuelD a = some j := by
  induction fuelD with
  | zero =>
    intro h l a j hd
    simp [denote] at hd
  | succ f ih =>
    intro h l a j hd
    simp only [denote] at hd ⊢
    cases hg : h.get? a with
    | none => rw [hg] at hd; simp at hd
    | some c =>
      rw [hg] at hd
      rw [get?_append_left h l a c hg]
      cases c with
      | prim p => exact hd
      | arr as =>
        dsimp only at hd ⊢
        rcases Option.map_eq_some'.1 hd with ⟨ys, hys, hj⟩
        subst hj
        have : as.mapM (denote (h ++ l) f) = some ys := by
          clear hd hg
          induction as generalizing ys with
          | nil =>
            simp only [List.mapM_nil] at hys
            cases hys
            rfl
          | cons x xs ihx =>
            simp only [List.mapM_cons] at hys ⊢
            rcases Option.bind_eq_some.1 hys with ⟨y, hy, h2⟩
            rcases Option.bind_eq_some.1 h2 with ⟨zs, hzs, h3⟩
            cases h3
            rw [ih h l x y hy, ihx zs hzs]
            rfl
        rw [this]
        rfl
      | obj fs =>
        dsimp only at hd ⊢
        rcases Option.map_eq_some'.1 hd with ⟨ys, hys, hj⟩
        subst hj
        have : fs.mapM (fun p =>
            (denote (h ++ l) f p.2).map (fun q => (p.1, q))) = some ys := by
          clear hd hg
          induction fs generalizing ys with
          | nil =>
            simp only [List.mapM_nil] at hys
            cases hys
            rfl
          | cons x xs ihx =>
            simp only [List.mapM_cons] at hys ⊢
            rcases Option.bind_eq_some.1 hys with ⟨y, hy, h2⟩
            rcases Option.bind_eq_some.1 h2 with ⟨zs, hzs, h3⟩
            cases h3
            rcases Option.map_eq_some'.1 hy with ⟨v, hv, hyv⟩
            subst hyv
            rw [ih h l x.2 v hv, ihx zs hzs]
            rfl
        rw [this]
        rfl

/-- `denote_mono` lifted over an address list. -/
theorem mapM_denote_mono (f : Nat) (h l : Heap) :
    ∀ (as : List Nat) (ys : List Json),
      as.mapM (denote h f) = some ys →
      as.mapM (denote (h ++ l) f) = some ys := by
  intro as
  induction as with
  | nil =>
    intro ys hm
    simpa using hm
  | cons x xs ih =>
    intro ys hm
    simp only [List.mapM_cons] at hm ⊢
    rcases Option.bind_eq_some.1 hm with ⟨y, hy, h2⟩
    rcases Option.bind_eq_some.1 h2 with ⟨zs, hzs, h3⟩
    cases h3
    rw [denote_mono f h l x y hy, ih zs hzs]
    rfl

/-- `denote_mono` lifted over object entries. -/
theorem mapMF_denote_mono (f : Nat) (h l : Heap) :
    ∀ (fs : List (String × Nat)) (ys : List (String × Json)),
      fs.mapM (fun p => (denote h f p.2).map (fun q => (p.1, q))) =
        some ys →
      fs.mapM (fun p =>
        (denote (h ++ l) f p.2).map (fun q => (p.1, q))) = some ys := by
  intro fs
  induction fs with
  | nil =>
    intro ys hm
    simpa using hm
  | cons x xs ih =>
    intro ys hm
    simp only [List.mapM_cons] at hm ⊢
    rcases Option.bind_eq_some.1 hm with ⟨y, hy, h2⟩
    rcases Option.bind_eq_some.1 h2 with ⟨zs, hzs, h3⟩
    cases h3
    rcases Option.map_eq_some'.1 hy with ⟨v, hv, hyv⟩
    subst hyv
    rw [denote_mono f h l x.2 v hv, ih zs hzs]
    rfl

mutual

/-- A freshly written tree reads back as exactly the written value. -/
theorem writeJson_denote : ∀ (j : Json) (h : Heap) (fuelD : Nat),
    jdepth j ≤ fuelD →
    denote (writeJson h j).1 fuelD (writeJson h j).2 = some j
  | .prim p, h, fuelD => by
    intro hf
    cases fuelD with
    | zero => exact absurd hf (by simp [jdepth])
    | succ f =>
      simp only [writeJson, denote]
      rw [List.get?_concat_length]
  | .arr items, h, fuelD => by
    intro hf
    cases fuelD with
    | zero => exact absurd hf (by simp [jdepth])
    | succ f =>
      have hfl : jdepthL items ≤ f := by
        have : jdepthL items + 1 ≤ f + 1 := hf
        omega
      cases hw : writeJsonL h items with
      | mk h1 addrs =>
        have hden := writeJsonL_denote items h f hfl
        rw [hw] at hden
        dsimp only at hden
        simp only [writeJson, hw, denote]
        rw [List.get?_concat_length]
        dsimp only
        rw [mapM_denote_mono f h1 [HCell.arr addrs] addrs items hden]
        rfl
  | .obj fields, h, fuelD => by
    intro hf
    cases fuelD with
    | zero => exact absurd hf (by simp [jdepth])
    | succ f =>
      have hfl : jdepthF fields ≤ f := by
        have : jdepthF fields + 1 ≤ f + 1 := hf
        omega
      cases hw : writeJsonF h fields with
      | mk h1 fas =>
        have hden := writeJsonF_denote fields h f hfl
        rw [hw] at hden
        dsimp only at hden
        simp only [writeJson, hw, denote]
        rw [List.get?_concat_length]
        dsimp only
        rw [mapMF_denote_mono f h1 [HCell.obj fas] fas fields hden]
        rfl

theorem writeJsonL_denote : ∀ (js : List Json) (h : Heap) (fuelD : Nat),
    jdepthL js ≤ fuelD →
    ((writeJsonL h js).2).mapM (denote (writeJsonL h js).1 fuelD) =
      some js
  | [], h, fuelD => by
    intro _
    exact rfl
  | j :: js, h, fuelD => by
    intro hf
    have hfj : jdepth j ≤ fuelD :=
      le_trans (le_max_left _ _) hf
    have hfjs : jdepthL js ≤ fuelD :=
      le_trans (le_max_right _ _) hf
    cases hw1 : writeJson h j with
    | mk h1 a =>
      cases hw2 : writeJsonL h1 js with
      | mk h2 as =>
        have hd1 := writeJson_denote j h fuelD hfj
        rw [hw1] at hd1
        dsimp only at hd1
        have hd2 := writeJsonL_denote js h1 fuelD hfjs
        rw [hw2] at hd2
        dsimp only at hd2
        rcases (writeJsonL_grows js h1).1 with ⟨l2, hl2⟩
        rw [hw2] at hl2
        dsimp only at hl2
        simp only [writeJsonL, hw1, hw2, List.mapM_cons]
        subst hl2
        rw [denote_mono fuelD h1 l2 a j hd1, hd2]
        rfl

theorem writeJsonF_denote :
    ∀ (ps : List (String × Json)) (h : Heap) (fuelD : Nat),
    jdepthF ps ≤ fuelD →
    ((writeJsonF h ps).2).mapM (fun q =>
      (denote (writeJsonF h ps).1 fuelD q.2).map (fun v => (q.1, v))) =
      some ps
  | [], h, fuelD => by
    intro _
    exact rfl
  | p :: ps, h, fuelD => by
    intro hf
    have hfj : jdepth p.2 ≤ fuelD :=
      le_trans (le_max_left _ _) hf
    have hfps : jdepthF ps ≤ fuelD :=
      le_trans (le_max_right _ _) hf
    cases hw1 : writeJson h p.2 with
    | mk h1 a =>
      cases hw2 : writeJsonF h1 ps with
      | mk h2 as =>
        have hd1 := writeJson_denote p.2 h fuelD hfj
        rw [hw1] at hd1
        dsimp only at hd1
        have hd2 := writeJsonF_denote ps h1 fuelD hfps
        rw [hw2] at hd2
        dsimp only at hd2
        rcases (writeJsonF_grows ps h1).1 with ⟨l2, hl2⟩
        rw [hw2] at hl2
        dsimp only at hl2
        simp only [writeJsonF, hw1, hw2, List.mapM_cons]
        subst hl2
        rw [denote_mono fuelD h1 l2 a p.2 hd1, hd2]
        rfl

end

/-- Mutating at or above the boundary leaves the region below it
untouched. -/
theorem setCell_agreeBelow (h : Heap) (n a : Nat) (c : HCell)
    (ha : n ≤ a) : agreeBelow h (setCell h a c) n := by
  intro b hb
  unfold setCell
  have hne : a ≠ b := by omega
  rw [List.get?_set_ne _ _ hne]

/-- Reads inside a closed region see only that region: any heap agreeing
below the boundary denotes the same values there. -/
theorem denote_agree (fuelD : Nat) :
    ∀ (h h' : Heap) (n a : Nat),
      agreeBelow h h' n → closedBelow h n → a < n →
      denote h fuelD a = denote h' fuelD a := by
  induction fuelD with
  | zero => intro h h' n a _ _ _; rfl
  | succ f ih =>
    intro h h' n a hag hcl ha
    simp only [denote]
    rw [← hag a ha]
    cases hg : h.get? a with
    | none => rfl
    | some c =>
      cases c with
      | prim p => rfl
      | arr as =>
        dsimp only
        have hrefs : ∀ r ∈ as, r < n := by
          intro r hr
          exact hcl a (.arr as) ha hg r (by simpa [cellRefs] using hr)
        have hmm : ∀ (bs : List Nat), (∀ r ∈ bs, r < n) →
            bs.mapM (denote h f) = bs.mapM (denote h' f) := by
          intro bs hbs
          induction bs with
          | nil => rfl
          | cons x xs ihx =>
            simp only [List.mapM_cons]
            rw [ih h h' n x hag hcl (hbs x (List.mem_cons_self x xs)),
              ihx (fun r hr => hbs r (List.mem_cons_of_mem x hr))]
        rw [hmm as hrefs]
      | obj fs =>
        dsimp only
        have hrefs : ∀ p ∈ fs, p.2 < n := by
          intro p hp
          refine hcl a (.obj fs) ha hg p.2 ?_
          simp only [cellRefs]
          exact List.mem_map_of_mem Prod.snd hp
        have hmm : ∀ (bs : List (String × Nat)), (∀ p ∈ bs, p.2 < n) →
            bs.mapM (fun p =>
              (denote h f p.2).map (fun q => (p.1, q))) =
            bs.mapM (fun p =>
              (denote h' f p.2).map (fun q => (p.1, q))) := by
          intro bs hbs
          induction bs with
          | nil => rfl
          | cons x xs ihx =>
            simp only [List.mapM_cons]
            rw [ih h h' n x.2 hag hcl (hbs x (List.mem_cons_self x xs)),
              ihx (fun p hp => hbs p (List.mem_cons_of_mem x hp))]
        rw [hmm fs hrefs]

/-- Non-empty assembled root schemas (the cache slots of a builder are
primed with `{}`; a built schema is never `{}`). -/
theorem dictSet_ne_nil (l : List (String × Json)) (k : String)
    (v : Json) : dictSet l k v ≠ [] := by
  unfold dictSet
  by_cases hc : (l.any fun q => q.1 = k) = true
  · rw [if_pos hc]
    intro hcon
    rw [List.map_eq_nil] at hcon
    rw [hcon] at hc
    simp at hc
  · rw [if_neg hc]
    simp

theorem assembleSchema_nonempty (b : SchemaBuilder) (dc : Dataclass)
    (many : Bool) (acc : BuildAcc) :
    jsonIsEmptyObj (assembleSchema b dc many false acc) = false := by
  unfold assembleSchema
  cases hdoc : dc.doc <;> cases many <;>
    simp [jsonSet, jsonIsEmptyObj, dictSet_ne_nil]

theorem createJsonSchema_nonempty {fuel : Nat} {env : Env}
    {glob : Encoders} {b : SchemaBuilder} {many : Bool}
    {parents0 : List BuilderKey} {fvIn : List (String × String)}
    {out : CreateOut}
    (h : createJsonSchema fuel env glob b many false parents0 fvIn =
      .ok out) :
    jsonIsEmptyObj out.schema = false := by
  cases fuel with
  | zero => simp [createJsonSchema] at h
  | succ m =>
    cases hdc : envFind env b.dataclassName with
    | none =>
      rw [createJsonSchema_succ, hdc] at h
      simp at h
    | some dc =>
      rcases createJsonSchema_parts h hdc with ⟨acc, _, hout⟩
      subst hout
      exact assembleSchema_nonempty b dc many acc

/-- C10: `json_schema` returns a fresh deep copy of the cached schema.
(1) Two calls with the same `many` on the same builder return equal
values.  (2) In the heap model of `copy.deepcopy`, the copy is written
entirely into fresh cells (root address at or above the old heap's
length, every existing cell preserved), (3) it reads back as exactly the
copied value, (4) mutating any cell at or above the allocation boundary
leaves the heap below the boundary intact, and (5) a region closed below
the boundary — the builder's cached schema — denotes the same value
under any such mutation, so later `json_schema` calls are unaffected. -/
theorem C10_json_schema_deepcopy {fuel : Nat} {env : Env}
    {glob : Encoders} {b : SchemaBuilder} {many : Bool}
    {st st1 st2 : BState} {j1 j2 : Json}
    (hc1 : jsonSchemaM fuel env glob b st many = .ok (j1, st1))
    (hc2 : jsonSchemaM fuel env glob b st1 many = .ok (j2, st2)) :
    j1 = j2 ∧
    (∀ (h : Heap) (j : Json),
      h.length ≤ (writeJson h j).2 ∧
      agreeBelow (writeJson h j).1 h h.length) ∧
    (∀ (h : Heap) (j : Json) (fuelD : Nat), jdepth j ≤ fuelD →
      denote (writeJson h j).1 fuelD (writeJson h j).2 = some j) ∧
    (∀ (h : Heap) (n a : Nat) (c : HCell), n ≤ a →
      agreeBelow h (setCell h a c) n) ∧
    (∀ (h h' : Heap) (n fuelD a : Nat),
      agreeBelow h h' n → closedBelow h n → a < n →
      denote h fuelD a = denote h' fuelD a) := by
  refine ⟨?_, ?_, ?_, ?_, ?_⟩
  · unfold jsonSchemaM at hc1 hc2
    cases many with
    | true =>
      rw [if_pos rfl] at hc1 hc2
      by_cases hemp : jsonIsEmptyObj st.schemaCache = true
      · rw [if_pos hemp] at hc1
        rcases bind_eq_ok.1 hc1 with ⟨out, hout, hpure⟩
        cases hpure
        have hne : jsonIsEmptyObj out.schema = false :=
          createJsonSchema_nonempty hout
        rw [if_neg (by simp [hne])] at hc2
        cases hc2
        rfl
      · rw [if_neg hemp] at hc1
        cases hc1
        rw [if_neg hemp] at hc2
        cases hc2
        rfl
    | false =>
      rw [if_neg (by simp)] at hc1 hc2
      by_cases hemp : jsonIsEmptyObj st.manySchemaCache = true
      · rw [if_pos hemp] at hc1
        rcases bind_eq_ok.1 hc1 with ⟨out, hout, hpure⟩
        cases hpure
        have hne : jsonIsEmptyObj out.schema = false :=
          createJsonSchema_nonempty hout
        rw [if_neg (by simp [hne])] at hc2
        cases hc2
        rfl
      · rw [if_neg hemp] at hc1
        cases hc1
        rw [if_neg hemp] at hc2
        cases hc2
        rfl
  · intro h j
    refine ⟨(writeJson_grows j h).2, ?_⟩
    rcases (writeJson_grows j h).1 with ⟨l, hl⟩
    intro a ha
    rw [hl]
    exact List.get?_append ha
  · intro h j fuelD hf
    exact writeJson_denote j h fuelD hf
  · intro h n a c ha
    exact setCell_agreeBelow h n a c ha
  · intro h h' n fuelD a hag hcl ha
    exact denote_agree fuelD h h' n a hag hcl ha

/-- Witness for C10 at a concrete builder state (cache already holding
`{"k": 1}`) and a concrete heap holding that schema. -/
theorem C10_json_schema_deepcopy_witness :
    (jsonSchemaM 3 ([] : Env) noEncoders
        { dataclassName := "W10" }
        { schemaCache := .obj [("k", jInt 1)] } true =
      .ok (.obj [("k", jInt 1)],
        { schemaCache := .obj [("k", jInt 1)] })) ∧
    denote (writeJson [HCell.prim (.i 1),
        HCell.obj [("k", 0)]] (.obj [("k", jInt 1)])).1 2
      (writeJson [HCell.prim (.i 1), HCell.obj [("k", 0)]]
        (.obj [("k", jInt 1)])).2 = some (.obj [("k", jInt 1)]) := by
  refine ⟨by rfl, ?_⟩
  exact (@C10_json_schema_deepcopy 3 [] noEncoders
    { dataclassName := "W10" } true
    { schemaCache := .obj [("k", jInt 1)] }
    { schemaCache := .obj [("k", jInt 1)] }
    { schemaCache := .obj [("k", jInt 1)] }
    (.obj [("k", jInt 1)]) (.obj [("k", jInt 1)])
    (by rfl) (by rfl)).2.2.1
    [HCell.prim (.i 1), HCell.obj [("k", 0)]]
    (.obj [("k", jInt 1)]) 2 (by decide)

end Serpyco
